import Mathlib

/-!
Verification of the ingestion-and-reconciliation core of the `ruian_backend`
repository, shallowly embedded in Lean 4.

Embedding conventions:
* Python `datetime` values are modelled at day granularity by `DT`
  (year/month/day as integers, lexicographic order), which is faithful for
  every comparison the claims touch.
* Python `float` and `Decimal` values are modelled exactly as `ℚ`.
* Python dictionaries (insertion ordered) are modelled as association lists
  in insertion order; `defaultdict` aggregation maps are modelled as total
  functions built by folding, mirroring the `+=` / `append` loops.
* Fallible code paths are modelled with `Option` / `Except`.
-/

/-- A naive datetime at day granularity (`datetime` objects in the source
compare lexicographically; the claims only ever need day precision). -/
structure DT where
  year : Int
  month : Int
  day : Int
deriving DecidableEq, Repr

/-- Lexicographic strict order on `DT`, matching Python `datetime` `<`. -/
def DT.lt (a b : DT) : Bool :=
  decide (a.year < b.year) ||
  (decide (a.year = b.year) &&
    (decide (a.month < b.month) ||
     (decide (a.month = b.month) && decide (a.day < b.day))))

/-- Lexicographic `≤` on `DT`, matching Python `datetime` `<=`. -/
def DT.le (a b : DT) : Bool := decide (a = b) || DT.lt a b

/-- The validation-result enum from `src/app/utils/enums.py`. -/
inductive VldResultEnum where
  | NOT_VLDED
  | VLD_PASSED
  | PERFORMANCE_EXCEEDS_QUANTITY
  | ORDER_NO_NOT_FOUND
deriving DecidableEq, Repr

/-- The `.value` string of each enum member (`enums.py` lines 11-14). -/
def VldResultEnum.value : VldResultEnum → String
  | .NOT_VLDED => "未校验"
  | .VLD_PASSED => "校验通过"
  | .PERFORMANCE_EXCEEDS_QUANTITY => "工作量超出系统值"
  | .ORDER_NO_NOT_FOUND => "工作量生产单号不存在"

/-- The `ProductionInfo` pydantic model (`src/app/model/production_info.py`).
The `worklog_no` field is read by `validate_production_and_worklog`
(`data_vld.py` line 51) and supplied by the validation API from the database
row (`api/validation.py` line 238); its declaration is absent from the model
file under `src/`. Modelled from the spec: `order_key` — "the reconciliation
key, NOT the raw order number" — is an attribute of every ProductionRecord. -/
structure ProductionInfo where
  id : Option Int := none
  order_no : String
  model : String
  brand_no : String
  quantity : Int
  job_type : String
  worklog_no : String := ""
  performance_factor : ℚ := 1
  upload_date : DT
  created_at : DT
  updated_at : DT
deriving DecidableEq, Repr

/-- The `EmployeeWorklog` pydantic model (`src/app/model/employee_worklog.py`). -/
structure EmployeeWorklog where
  id : Option Int := none
  order_no : String
  model : Option String := none
  brand_no : Option String := none
  employee_id : String
  employee_name : Option String := none
  job_type : String := "未知"
  quantity : Int
  performance_factor : ℚ := 1
  performance_amount : ℚ
  work_date : DT
  upload_date : DT
  validation_result : String := VldResultEnum.NOT_VLDED.value
  created_at : DT
  updated_at : DT
deriving DecidableEq, Repr

/-! ## Reconciliation engine — `src/app/utils/data_vld.py` -/

/-- Step 1 of `validate_production_and_worklog` (`data_vld.py` lines 49-51):
`production_agg = defaultdict(int)` then
`production_agg[prod.worklog_no] += prod.quantity` for each record. -/
def productionAgg (l : List ProductionInfo) : String → Int :=
  l.foldl (fun m prod k => if decide (k = prod.worklog_no) then m k + prod.quantity else m k)
    (fun _ => 0)

/-- Step 2 (`data_vld.py` lines 54-57): `worklog_agg = defaultdict(float)` then
`worklog_agg[worklog.order_no] += worklog.performance_amount`. -/
def worklogAgg (l : List EmployeeWorklog) : String → ℚ :=
  l.foldl (fun m w k => if decide (k = w.order_no) then m k + w.performance_amount else m k)
    (fun _ => 0)

/-- Step 2 (`data_vld.py` lines 55-58): `worklog_by_order = defaultdict(list)`
then `worklog_by_order[worklog.order_no].append(worklog)`. -/
def worklogByOrder (l : List EmployeeWorklog) : String → List EmployeeWorklog :=
  l.foldl (fun m w k => if decide (k = w.order_no) then m k ++ [w] else m k)
    (fun _ => [])

/-- The keys of `worklog_agg` in insertion (first-occurrence) order: the loop
on `data_vld.py` line 63 iterates `worklog_agg.keys()`. -/
def orderKeys (l : List EmployeeWorklog) : List String :=
  l.foldl (fun acc w => if acc.contains w.order_no then acc else acc ++ [w.order_no]) []

/-- Membership test `order_no in production_agg` (`data_vld.py` lines 64, 78):
after step 1 the keys of the defaultdict are exactly the `worklog_no` values
of the production records. -/
def hasProdKey (prods : List ProductionInfo) (k : String) : Bool :=
  prods.any (fun prod => decide (prod.worklog_no = k))

/-- Mutation `worklog.validation_result = v` (e.g. `data_vld.py` line 70). -/
def setVld (w : EmployeeWorklog) (v : String) : EmployeeWorklog :=
  { w with validation_result := v }

/-- The exceeds check of `data_vld.py` line 80: `worklog_sum > production_sum`,
a Python `float > int` comparison, exact on `ℚ`. -/
def exceedsQty (prods : List ProductionInfo) (wls : List EmployeeWorklog) (k : String) :
    Bool :=
  decide ((productionAgg prods k : ℚ) < worklogAgg wls k)

/-- `validate_production_and_worklog` (`data_vld.py` lines 22-102).

Returns `(exception_result, normal_result)`.  `exception_result` is keyed by
`(order_no, enum)`: first all `ORDER_NO_NOT_FOUND` entries (step 3, in key
insertion order), then all `PERFORMANCE_EXCEEDS_QUANTITY` entries (step 4).
`normal_result` (step 5) collects the keys in neither exception set.  Each
grouped record has its `validation_result` field set, modelling the in-place
mutation. -/
def validate_production_and_worklog (prods : List ProductionInfo)
    (wls : List EmployeeWorklog) :
    List ((String × VldResultEnum) × List EmployeeWorklog) ×
      List (String × List EmployeeWorklog) :=
  let notFoundKeys := (orderKeys wls).filter (fun k => !hasProdKey prods k)
  let exceedsKeys :=
    (orderKeys wls).filter (fun k => hasProdKey prods k && exceedsQty prods wls k)
  let normalKeys :=
    (orderKeys wls).filter
      (fun k => !(!hasProdKey prods k || (hasProdKey prods k && exceedsQty prods wls k)))
  ( notFoundKeys.map (fun k =>
      ((k, VldResultEnum.ORDER_NO_NOT_FOUND),
        (worklogByOrder wls k).map (fun w => setVld w VldResultEnum.ORDER_NO_NOT_FOUND.value)))
    ++ exceedsKeys.map (fun k =>
      ((k, VldResultEnum.PERFORMANCE_EXCEEDS_QUANTITY),
        (worklogByOrder wls k).map
          (fun w => setVld w VldResultEnum.PERFORMANCE_EXCEEDS_QUANTITY.value))),
    normalKeys.map (fun k =>
      (k, (worklogByOrder wls k).map (fun w => setVld w VldResultEnum.VLD_PASSED.value))) )

/-- The classification an order number receives, following the precedence of
`data_vld.py` steps 3-5 (not-found first, then strict exceeds, else passed). -/
def classValue (prods : List ProductionInfo) (wls : List EmployeeWorklog)
    (k : String) : String :=
  if hasProdKey prods k then
    if exceedsQty prods wls k then VldResultEnum.PERFORMANCE_EXCEEDS_QUANTITY.value
    else VldResultEnum.VLD_PASSED.value
  else VldResultEnum.ORDER_NO_NOT_FOUND.value

/-! ## Bridge lemmas: the aggregation folds compute filtered sums/groups -/

theorem productionAgg_go (l : List ProductionInfo) (m : String → Int) (k : String) :
    (l.foldl (fun m prod k => if decide (k = prod.worklog_no) then m k + prod.quantity else m k) m) k
      = m k + ((l.filter (fun p => decide (p.worklog_no = k))).map (fun p => p.quantity)).sum := by
  induction l generalizing m with
  | nil => simp
  | cons p t ih =>
    simp only [List.foldl_cons, ih, List.filter_cons]
    by_cases h : p.worklog_no = k
    · simp [h, add_assoc]
    · have h' : ¬(k = p.worklog_no) := fun hh => h hh.symm
      simp [h, h']

/-- `production_agg[k]` is the sum of `quantity` over the production records
whose `worklog_no` equals `k`. -/
theorem productionAgg_eq (l : List ProductionInfo) (k : String) :
    productionAgg l k
      = ((l.filter (fun p => decide (p.worklog_no = k))).map (fun p => p.quantity)).sum := by
  have := productionAgg_go l (fun _ => 0) k
  simpa [productionAgg] using this

theorem worklogAgg_go (l : List EmployeeWorklog) (m : String → ℚ) (k : String) :
    (l.foldl (fun m w k => if decide (k = w.order_no) then m k + w.performance_amount else m k) m) k
      = m k + ((l.filter (fun w => decide (w.order_no = k))).map (fun w => w.performance_amount)).sum := by
  induction l generalizing m with
  | nil => simp
  | cons w t ih =>
    simp only [List.foldl_cons, ih, List.filter_cons]
    by_cases h : w.order_no = k
    · simp [h, add_assoc]
    · have h' : ¬(k = w.order_no) := fun hh => h hh.symm
      simp [h, h']

/-- `worklog_agg[k]` is the sum of `performance_amount` over the worklog
records whose `order_no` equals `k`. -/
theorem worklogAgg_eq (l : List EmployeeWorklog) (k : String) :
    worklogAgg l k
      = ((l.filter (fun w => decide (w.order_no = k))).map (fun w => w.performance_amount)).sum := by
  have := worklogAgg_go l (fun _ => 0) k
  simpa [worklogAgg] using this

theorem worklogByOrder_go (l : List EmployeeWorklog) (m : String → List EmployeeWorklog)
    (k : String) :
    (l.foldl (fun m w k => if decide (k = w.order_no) then m k ++ [w] else m k) m) k
      = m k ++ l.filter (fun w => decide (w.order_no = k)) := by
  induction l generalizing m with
  | nil => simp
  | cons w t ih =>
    simp only [List.foldl_cons, ih, List.filter_cons]
    by_cases h : w.order_no = k
    · simp [h]
    · have h' : ¬(k = w.order_no) := fun hh => h hh.symm
      simp [h, h']

/-- `worklog_by_order[k]` is the sublist of worklog records whose `order_no`
equals `k`, in input order. -/
theorem worklogByOrder_eq (l : List EmployeeWorklog) (k : String) :
    worklogByOrder l k = l.filter (fun w => decide (w.order_no = k)) := by
  have := worklogByOrder_go l (fun _ => []) k
  simpa [worklogByOrder] using this

theorem orderKeys_go_mem (l : List EmployeeWorklog) (acc : List String) (k : String) :
    k ∈ l.foldl
        (fun acc w => if acc.contains w.order_no then acc else acc ++ [w.order_no]) acc
      ↔ k ∈ acc ∨ ∃ w ∈ l, w.order_no = k := by
  induction l generalizing acc with
  | nil => simp
  | cons w t ih =>
    simp only [List.foldl_cons]
    by_cases h : acc.contains w.order_no
    · rw [if_pos h, ih]
      have hmem : w.order_no ∈ acc := List.elem_iff.mp h
      constructor
      · rintro (hk | ⟨w', hw', hk⟩)
        · exact Or.inl hk
        · exact Or.inr ⟨w', List.mem_cons_of_mem _ hw', hk⟩
      · rintro (hk | ⟨w', hw', hk⟩)
        · exact Or.inl hk
        · rcases List.mem_cons.mp hw' with hw' | hw'
          · subst hw'
            rw [← hk]
            exact Or.inl hmem
          · exact Or.inr ⟨w', hw', hk⟩
    · rw [if_neg h, ih]
      constructor
      · rintro (hk | ⟨w', hw', hk⟩)
        · rcases List.mem_append.mp hk with hk | hk
          · exact Or.inl hk
          · exact Or.inr ⟨w, List.mem_cons_self _ _, (List.mem_singleton.mp hk).symm⟩
        · exact Or.inr ⟨w', List.mem_cons_of_mem _ hw', hk⟩
      · rintro (hk | ⟨w', hw', hk⟩)
        · exact Or.inl (List.mem_append.mpr (Or.inl hk))
        · rcases List.mem_cons.mp hw' with hw' | hw'
          · subst hw'
            exact Or.inl (List.mem_append.mpr (Or.inr (List.mem_singleton.mpr hk.symm)))
          · exact Or.inr ⟨w', hw', hk⟩

/-- A key is among the worklog aggregation keys iff some worklog record
carries it as `order_no`. -/
theorem mem_orderKeys (l : List EmployeeWorklog) (k : String) :
    k ∈ orderKeys l ↔ ∃ w ∈ l, w.order_no = k := by
  have := orderKeys_go_mem l [] k
  simpa [orderKeys] using this

theorem orderKeys_go_nodup (l : List EmployeeWorklog) (acc : List String)
    (h : acc.Nodup) :
    (l.foldl (fun acc w => if acc.contains w.order_no then acc else acc ++ [w.order_no])
      acc).Nodup := by
  induction l generalizing acc with
  | nil => simpa using h
  | cons w t ih =>
    simp only [List.foldl_cons]
    by_cases hc : acc.contains w.order_no
    · rw [if_pos hc]; exact ih acc h
    · rw [if_neg hc]
      refine ih _ ?_
      have hnm : w.order_no ∉ acc := fun hm => hc (List.elem_iff.mpr hm)
      simpa [List.concat_eq_append] using List.Nodup.concat hnm h

/-- The insertion-ordered key list has no duplicates (dict keys are unique). -/
theorem orderKeys_nodup (l : List EmployeeWorklog) : (orderKeys l).Nodup :=
  orderKeys_go_nodup l [] List.nodup_nil

/-! ## Membership in the reconciliation outputs -/

theorem mem_validate_exc_iff (prods : List ProductionInfo) (wls : List EmployeeWorklog)
    (k : String) (e : VldResultEnum) (g : List EmployeeWorklog) :
    ((k, e), g) ∈ (validate_production_and_worklog prods wls).1 ↔
      (e = VldResultEnum.ORDER_NO_NOT_FOUND ∧ k ∈ orderKeys wls ∧
        hasProdKey prods k = false ∧
        g = (worklogByOrder wls k).map
          (fun w => setVld w VldResultEnum.ORDER_NO_NOT_FOUND.value))
      ∨ (e = VldResultEnum.PERFORMANCE_EXCEEDS_QUANTITY ∧ k ∈ orderKeys wls ∧
        hasProdKey prods k = true ∧ exceedsQty prods wls k = true ∧
        g = (worklogByOrder wls k).map
          (fun w => setVld w VldResultEnum.PERFORMANCE_EXCEEDS_QUANTITY.value)) := by
  simp only [validate_production_and_worklog, List.mem_append, List.mem_map,
    List.mem_filter, Prod.mk.injEq, Bool.and_eq_true, Bool.not_eq_true']
  constructor
  · rintro (⟨k', ⟨hk', hnp⟩, ⟨hkk, hee⟩, hg⟩ | ⟨k', ⟨hk', hp, hx⟩, ⟨hkk, hee⟩, hg⟩)
    · subst hkk
      exact Or.inl ⟨hee.symm, hk', hnp, hg.symm⟩
    · subst hkk
      exact Or.inr ⟨hee.symm, hk', hp, hx, hg.symm⟩
  · rintro (⟨he, hk, hnp, hg⟩ | ⟨he, hk, hp, hx, hg⟩)
    · exact Or.inl ⟨k, ⟨hk, hnp⟩, ⟨rfl, he.symm⟩, hg.symm⟩
    · exact Or.inr ⟨k, ⟨hk, hp, hx⟩, ⟨rfl, he.symm⟩, hg.symm⟩

theorem mem_validate_norm_iff (prods : List ProductionInfo) (wls : List EmployeeWorklog)
    (k : String) (g : List EmployeeWorklog) :
    (k, g) ∈ (validate_production_and_worklog prods wls).2 ↔
      k ∈ orderKeys wls ∧ hasProdKey prods k = true ∧ exceedsQty prods wls k = false ∧
        g = (worklogByOrder wls k).map (fun w => setVld w VldResultEnum.VLD_PASSED.value) := by
  simp only [validate_production_and_worklog, List.mem_map, List.mem_filter,
    Prod.mk.injEq]
  constructor
  · rintro ⟨k', ⟨hk', hcond⟩, hkk, hg⟩
    rw [hkk] at hk' hcond hg
    cases hP : hasProdKey prods k with
    | false => rw [hP] at hcond; simp at hcond
    | true =>
      cases hX : exceedsQty prods wls k with
      | false => exact ⟨hk', rfl, rfl, hg.symm⟩
      | true => rw [hP, hX] at hcond; simp at hcond
  · rintro ⟨hk, hp, hx, hg⟩
    refine ⟨k, ⟨hk, ?_⟩, rfl, hg.symm⟩
    rw [hp, hx]
    rfl

@[simp]
theorem setVld_validation_result (w : EmployeeWorklog) (v : String) :
    (setVld w v).validation_result = v := rfl

/-- Sample timestamp used by concrete witnesses. -/
def dJan : DT := ⟨2025, 1, 15⟩

/-- A concrete production record for witnesses. -/
def sampleProd (ono wno : String) (q : Int) : ProductionInfo :=
  { order_no := ono, model := "M", brand_no := "B1", quantity := q, job_type := "J",
    worklog_no := wno, upload_date := dJan, created_at := dJan, updated_at := dJan }

/-- A concrete worklog record for witnesses. -/
def sampleWl (ono emp : String) (amt : ℚ) : EmployeeWorklog :=
  { order_no := ono, employee_id := emp, quantity := 1, performance_amount := amt,
    work_date := dJan, upload_date := dJan, created_at := dJan, updated_at := dJan }

/-- C1: for every production list and worklog list, classification is decided
per order number with this precedence: a worklog order number matching no
production aggregation key puts the whole group in `order-not-found` and
excludes it from the exceeds-quantity check and from the normal output;
otherwise a group whose `performance_amount` sum strictly exceeds the summed
production quantity is `exceeds-quantity`; otherwise (including exact
equality) the group is `passed`. -/
theorem C1_classification_precedence (prods : List ProductionInfo)
    (wls : List EmployeeWorklog) (k : String) (hk : k ∈ orderKeys wls) :
    (hasProdKey prods k = false →
      ((k, VldResultEnum.ORDER_NO_NOT_FOUND),
          (worklogByOrder wls k).map
            (fun w => setVld w VldResultEnum.ORDER_NO_NOT_FOUND.value))
        ∈ (validate_production_and_worklog prods wls).1
      ∧ (∀ g, ((k, VldResultEnum.ORDER_NO_NOT_FOUND), g)
            ∈ (validate_production_and_worklog prods wls).1 →
          ∀ w ∈ g, w.validation_result = VldResultEnum.ORDER_NO_NOT_FOUND.value)
      ∧ (∀ g, ((k, VldResultEnum.PERFORMANCE_EXCEEDS_QUANTITY), g)
            ∉ (validate_production_and_worklog prods wls).1)
      ∧ (∀ g, (k, g) ∉ (validate_production_and_worklog prods wls).2))
    ∧ (hasProdKey prods k = true → (productionAgg prods k : ℚ) < worklogAgg wls k →
      ((k, VldResultEnum.PERFORMANCE_EXCEEDS_QUANTITY),
          (worklogByOrder wls k).map
            (fun w => setVld w VldResultEnum.PERFORMANCE_EXCEEDS_QUANTITY.value))
        ∈ (validate_production_and_worklog prods wls).1
      ∧ (∀ g, ((k, VldResultEnum.PERFORMANCE_EXCEEDS_QUANTITY), g)
            ∈ (validate_production_and_worklog prods wls).1 →
          ∀ w ∈ g, w.validation_result = VldResultEnum.PERFORMANCE_EXCEEDS_QUANTITY.value)
      ∧ (∀ g, ((k, VldResultEnum.ORDER_NO_NOT_FOUND), g)
            ∉ (validate_production_and_worklog prods wls).1)
      ∧ (∀ g, (k, g) ∉ (validate_production_and_worklog prods wls).2))
    ∧ (hasProdKey prods k = true → worklogAgg wls k ≤ (productionAgg prods k : ℚ) →
      (k, (worklogByOrder wls k).map (fun w => setVld w VldResultEnum.VLD_PASSED.value))
        ∈ (validate_production_and_worklog prods wls).2
      ∧ (∀ g, (k, g) ∈ (validate_production_and_worklog prods wls).2 →
          ∀ w ∈ g, w.validation_result = VldResultEnum.VLD_PASSED.value)
      ∧ (∀ e g, ((k, e), g) ∉ (validate_production_and_worklog prods wls).1)) := by
  refine ⟨fun hnp => ⟨?_, ?_, ?_, ?_⟩, fun hp hlt => ⟨?_, ?_, ?_, ?_⟩,
    fun hp hle => ⟨?_, ?_, ?_⟩⟩
  · exact (mem_validate_exc_iff prods wls k _ _).mpr (Or.inl ⟨rfl, hk, hnp, rfl⟩)
  · intro g hg w hw
    rcases (mem_validate_exc_iff prods wls k _ g).mp hg with ⟨_, _, _, hgeq⟩ | ⟨hee, _⟩
    · subst hgeq
      rcases List.mem_map.mp hw with ⟨w', _, rfl⟩
      simp
    · exact absurd hee (by simp)
  · intro g hg
    rcases (mem_validate_exc_iff prods wls k _ g).mp hg with ⟨hee, _⟩ | ⟨_, _, hp', _⟩
    · exact absurd hee (by simp)
    · rw [hnp] at hp'; exact absurd hp' (by simp)
  · intro g hg
    rcases (mem_validate_norm_iff prods wls k g).mp hg with ⟨_, hp', _⟩
    rw [hnp] at hp'; exact absurd hp' (by simp)
  · refine (mem_validate_exc_iff prods wls k _ _).mpr (Or.inr ⟨rfl, hk, hp, ?_, rfl⟩)
    simpa [exceedsQty] using hlt
  · intro g hg w hw
    rcases (mem_validate_exc_iff prods wls k _ g).mp hg with ⟨hee, _⟩ | ⟨_, _, _, _, hgeq⟩
    · exact absurd hee (by simp)
    · subst hgeq
      rcases List.mem_map.mp hw with ⟨w', _, rfl⟩
      simp
  · intro g hg
    rcases (mem_validate_exc_iff prods wls k _ g).mp hg with ⟨_, _, hp', _⟩ | ⟨hee, _⟩
    · rw [hp] at hp'; exact absurd hp' (by simp)
    · exact absurd hee (by simp)
  · intro g hg
    rcases (mem_validate_norm_iff prods wls k g).mp hg with ⟨_, _, hx, _⟩
    rw [show exceedsQty prods wls k = true by simpa [exceedsQty] using hlt] at hx
    exact absurd hx (by simp)
  · refine (mem_validate_norm_iff prods wls k _).mpr ⟨hk, hp, ?_, rfl⟩
    simpa [exceedsQty] using not_lt.mpr hle
  · intro g hg w hw
    rcases (mem_validate_norm_iff prods wls k g).mp hg with ⟨_, _, _, hgeq⟩
    subst hgeq
    rcases List.mem_map.mp hw with ⟨w', _, rfl⟩
    simp
  · intro e g hg
    rcases (mem_validate_exc_iff prods wls k e g).mp hg with ⟨_, _, hp', _⟩ | ⟨_, _, _, hx, _⟩
    · rw [hp] at hp'; exact absurd hp' (by simp)
    · rw [show exceedsQty prods wls k = false by simpa [exceedsQty] using not_lt.mpr hle] at hx
      exact absurd hx (by simp)

/-- Witness for C1: a worklog order "P9" with no production record lands, with
its whole group, in the `order-not-found` exception bucket. -/
theorem C1_classification_precedence_witness :
    (("P9", VldResultEnum.ORDER_NO_NOT_FOUND),
        (worklogByOrder [sampleWl "P9" "E1" 40] "P9").map
          (fun w => setVld w VldResultEnum.ORDER_NO_NOT_FOUND.value))
      ∈ (validate_production_and_worklog [] [sampleWl "P9" "E1" 40]).1 :=
  ((C1_classification_precedence [] [sampleWl "P9" "E1" 40] "P9" (by decide)).1
    (by decide)).1

/-- C3: the production-side aggregation maps each key to the sum of `quantity`
over the production records sharing that key, and the key used is the
record's `worklog_no`, not its raw `order_no`: a record with
`order_no = "A"` and `worklog_no = "B"` aggregates under `"B"` and
contributes nothing under `"A"`. -/
theorem C3_production_agg_keyed_by_worklog_no :
    (∀ (prods : List ProductionInfo) (k : String),
      productionAgg prods k
        = ((prods.filter (fun p => decide (p.worklog_no = k))).map
            (fun p => p.quantity)).sum)
    ∧ productionAgg [sampleProd "A" "B" 5] "B" = 5
    ∧ productionAgg [sampleProd "A" "B" 5] "A" = 0
    ∧ (sampleProd "A" "B" 5).order_no = "A" ∧ (sampleProd "A" "B" 5).worklog_no = "B" :=
  ⟨productionAgg_eq, by decide, by decide, rfl, rfl⟩

@[simp]
theorem setVld_order_no (w : EmployeeWorklog) (v : String) :
    (setVld w v).order_no = w.order_no := rfl

theorem flatMap_congr {α β : Type} {ks : List α} {f g : α → List β}
    (h : ∀ k ∈ ks, f k = g k) : ks.flatMap f = ks.flatMap g := by
  induction ks with
  | nil => rfl
  | cons k t ih =>
    simp only [List.flatMap_cons]
    rw [h k (List.mem_cons_self _ _), ih (fun k' hk' => h k' (List.mem_cons_of_mem _ hk'))]

/-- Grouping a list by a nodup, covering key list and concatenating the groups
permutes the original list. -/
theorem flatMap_filter_perm {α κ : Type} [DecidableEq κ] (key : α → κ) :
    ∀ (ks : List κ) (l : List α), ks.Nodup → (∀ x ∈ l, key x ∈ ks) →
      (ks.flatMap (fun k => l.filter (fun x => decide (key x = k)))).Perm l := by
  intro ks
  induction ks with
  | nil =>
    intro l _ hcov
    have hl : l = [] := List.eq_nil_iff_forall_not_mem.mpr (fun a ha => by simpa using hcov a ha)
    simp [hl]
  | cons k t ih =>
    intro l hnd hcov
    have hnd' := List.nodup_cons.mp hnd
    simp only [List.flatMap_cons]
    have hstep : t.flatMap (fun k' => l.filter (fun x => decide (key x = k')))
        = t.flatMap (fun k' =>
            (l.filter (fun x => !decide (key x = k))).filter
              (fun x => decide (key x = k'))) := by
      apply flatMap_congr
      intro k' hk'
      rw [List.filter_filter]
      apply List.filter_congr
      intro x _
      by_cases hxk : key x = k'
      · have hne2 : ¬ k' = k := by
          intro h0
          apply hnd'.1
          rw [← h0]
          exact hk'
        simp [hxk, hne2]
      · simp [hxk]
    rw [hstep]
    have hcov' : ∀ x ∈ l.filter (fun x => !decide (key x = k)), key x ∈ t := by
      intro x hx
      rcases List.mem_filter.mp hx with ⟨hxl, hxk⟩
      have hne : ¬ key x = k := by simpa using hxk
      rcases List.mem_cons.mp (hcov x hxl) with h0 | h0
      · exact absurd h0 hne
      · exact h0
    have hperm := ih (l.filter (fun x => !decide (key x = k))) hnd'.2 hcov'
    exact List.Perm.trans (List.Perm.append_left _ hperm) (List.filter_append_perm _ l)

/-- Splitting a list by `¬p`, `p ∧ q`, `p ∧ ¬q` and concatenating permutes it. -/
theorem filter_three_way_perm {α : Type} (p q : α → Bool) (l : List α) :
    (l.filter (fun a => !p a)
      ++ (l.filter (fun a => p a && q a) ++ l.filter (fun a => p a && !q a))).Perm l := by
  have hA : l.filter (fun a => p a && q a) = (l.filter p).filter q := by
    rw [List.filter_filter]
    apply List.filter_congr
    intro x _
    cases p x <;> cases q x <;> rfl
  have hB : l.filter (fun a => p a && !q a) = (l.filter p).filter (fun a => !q a) := by
    rw [List.filter_filter]
    apply List.filter_congr
    intro x _
    cases p x <;> cases q x <;> rfl
  rw [hA, hB]
  exact List.Perm.trans
    (List.Perm.append_left _ (List.filter_append_perm q (l.filter p)))
    (List.Perm.trans List.perm_append_comm (List.filter_append_perm p l))

theorem classValue_of_notFound (prods : List ProductionInfo) (wls : List EmployeeWorklog)
    (k : String) (h : hasProdKey prods k = false) :
    classValue prods wls k = VldResultEnum.ORDER_NO_NOT_FOUND.value := by
  simp [classValue, h]

theorem classValue_of_exceeds (prods : List ProductionInfo) (wls : List EmployeeWorklog)
    (k : String) (h : hasProdKey prods k = true) (hx : exceedsQty prods wls k = true) :
    classValue prods wls k = VldResultEnum.PERFORMANCE_EXCEEDS_QUANTITY.value := by
  simp [classValue, h, hx]

theorem classValue_of_passed (prods : List ProductionInfo) (wls : List EmployeeWorklog)
    (k : String) (h : hasProdKey prods k = true) (hx : exceedsQty prods wls k = false) :
    classValue prods wls k = VldResultEnum.VLD_PASSED.value := by
  simp [classValue, h, hx]

/-- Each per-key output group is the corresponding filter of the classified
input list. -/
theorem validate_group_eq (prods : List ProductionInfo) (wls : List EmployeeWorklog)
    (k : String) (v : String) (hv : classValue prods wls k = v) :
    (worklogByOrder wls k).map (fun w => setVld w v)
      = (wls.map (fun w => setVld w (classValue prods wls w.order_no))).filter
          (fun x => decide (x.order_no = k)) := by
  rw [worklogByOrder_eq, List.filter_map]
  have hp : ((fun x : EmployeeWorklog => decide (x.order_no = k))
        ∘ (fun w => setVld w (classValue prods wls w.order_no)))
      = fun w => decide (w.order_no = k) := by
    funext w
    simp [setVld]
  rw [hp]
  apply List.map_congr_left
  intro w hw
  have hwk : w.order_no = k := by simpa using (List.mem_filter.mp hw).2
  rw [hwk, hv]

/-- C2: the two reconciliation outputs partition the input worklog list: the
concatenation of all exception groups and all normal groups is a permutation
of the input (with each record's `validation_result` set to its order's
classification), so no record is lost or duplicated; and every record lands
in the group matching its order number, carrying that group's enum value. -/
theorem C2_outputs_partition_input (prods : List ProductionInfo)
    (wls : List EmployeeWorklog) :
    ((validate_production_and_worklog prods wls).1.flatMap (fun e => e.2)
        ++ (validate_production_and_worklog prods wls).2.flatMap (fun e => e.2)).Perm
      (wls.map (fun w => setVld w (classValue prods wls w.order_no)))
    ∧ (∀ k e g, ((k, e), g) ∈ (validate_production_and_worklog prods wls).1 →
        ∀ w ∈ g, w.validation_result = e.value ∧ w.order_no = k)
    ∧ (∀ k g, (k, g) ∈ (validate_production_and_worklog prods wls).2 →
        ∀ w ∈ g, w.validation_result = VldResultEnum.VLD_PASSED.value ∧ w.order_no = k) := by
  refine ⟨?_, ?_, ?_⟩
  · simp only [validate_production_and_worklog]
    rw [List.flatMap_append, List.flatMap_map, List.flatMap_map, List.flatMap_map]
    have hnf : ((orderKeys wls).filter (fun k => !hasProdKey prods k)).flatMap
          (fun k => (worklogByOrder wls k).map
            (fun w => setVld w VldResultEnum.ORDER_NO_NOT_FOUND.value))
        = ((orderKeys wls).filter (fun k => !hasProdKey prods k)).flatMap
          (fun k => (wls.map (fun w => setVld w (classValue prods wls w.order_no))).filter
            (fun x => decide (x.order_no = k))) := by
      apply flatMap_congr
      intro k hk
      rcases List.mem_filter.mp hk with ⟨_, hc⟩
      exact validate_group_eq prods wls k _
        (classValue_of_notFound prods wls k (by simpa using hc))
    have hex : ((orderKeys wls).filter
            (fun k => hasProdKey prods k && exceedsQty prods wls k)).flatMap
          (fun k => (worklogByOrder wls k).map
            (fun w => setVld w VldResultEnum.PERFORMANCE_EXCEEDS_QUANTITY.value))
        = ((orderKeys wls).filter
            (fun k => hasProdKey prods k && exceedsQty prods wls k)).flatMap
          (fun k => (wls.map (fun w => setVld w (classValue prods wls w.order_no))).filter
            (fun x => decide (x.order_no = k))) := by
      apply flatMap_congr
      intro k hk
      rcases List.mem_filter.mp hk with ⟨_, hc⟩
      rcases Bool.and_eq_true_iff.mp hc with ⟨h1, h2⟩
      exact validate_group_eq prods wls k _ (classValue_of_exceeds prods wls k h1 h2)
    have hnorm : ((orderKeys wls).filter
            (fun k => !(!hasProdKey prods k
              || (hasProdKey prods k && exceedsQty prods wls k)))).flatMap
          (fun k => (worklogByOrder wls k).map
            (fun w => setVld w VldResultEnum.VLD_PASSED.value))
        = ((orderKeys wls).filter
            (fun k => !(!hasProdKey prods k
              || (hasProdKey prods k && exceedsQty prods wls k)))).flatMap
          (fun k => (wls.map (fun w => setVld w (classValue prods wls w.order_no))).filter
            (fun x => decide (x.order_no = k))) := by
      apply flatMap_congr
      intro k hk
      rcases List.mem_filter.mp hk with ⟨_, hc⟩
      have h1 : hasProdKey prods k = true := by
        cases h : hasProdKey prods k
        · rw [h] at hc; simp at hc
        · rfl
      have h2 : exceedsQty prods wls k = false := by
        cases h : exceedsQty prods wls k
        · rfl
        · rw [h, h1] at hc; simp at hc
      exact validate_group_eq prods wls k _ (classValue_of_passed prods wls k h1 h2)
    rw [hnf, hex, hnorm, List.append_assoc, ← List.flatMap_append, ← List.flatMap_append]
    have hnormpred : ((orderKeys wls).filter
          (fun k => !(!hasProdKey prods k
            || (hasProdKey prods k && exceedsQty prods wls k))))
        = ((orderKeys wls).filter
          (fun k => hasProdKey prods k && !exceedsQty prods wls k)) := by
      apply List.filter_congr
      intro k _
      cases hasProdKey prods k <;> cases exceedsQty prods wls k <;> rfl
    have hKperm : (((orderKeys wls).filter (fun k => !hasProdKey prods k)
        ++ (((orderKeys wls).filter
              (fun k => hasProdKey prods k && exceedsQty prods wls k))
          ++ ((orderKeys wls).filter
              (fun k => !(!hasProdKey prods k
                || (hasProdKey prods k && exceedsQty prods wls k))))))).Perm
          (orderKeys wls) := by
      rw [hnormpred]
      exact filter_three_way_perm (fun k => hasProdKey prods k)
        (fun k => exceedsQty prods wls k) (orderKeys wls)
    refine List.Perm.trans (List.Perm.flatMap_right _ hKperm) ?_
    apply flatMap_filter_perm (fun x : EmployeeWorklog => x.order_no)
    · exact orderKeys_nodup wls
    · intro x hx
      rcases List.mem_map.mp hx with ⟨w, hw, rfl⟩
      exact (mem_orderKeys wls _).mpr ⟨w, hw, by simp⟩
  · rintro k e g hg w hw
    rcases (mem_validate_exc_iff prods wls k e g).mp hg with
      ⟨he, _, _, hgeq⟩ | ⟨he, _, _, _, hgeq⟩
    · subst hgeq
      rcases List.mem_map.mp hw with ⟨w', hw', rfl⟩
      refine ⟨by simp [he], ?_⟩
      rw [worklogByOrder_eq] at hw'
      have := (List.mem_filter.mp hw').2
      simpa using this
    · subst hgeq
      rcases List.mem_map.mp hw with ⟨w', hw', rfl⟩
      refine ⟨by simp [he], ?_⟩
      rw [worklogByOrder_eq] at hw'
      have := (List.mem_filter.mp hw').2
      simpa using this
  · rintro k g hg w hw
    rcases (mem_validate_norm_iff prods wls k g).mp hg with ⟨_, _, _, hgeq⟩
    subst hgeq
    rcases List.mem_map.mp hw with ⟨w', hw', rfl⟩
    refine ⟨by simp, ?_⟩
    rw [worklogByOrder_eq] at hw'
    have := (List.mem_filter.mp hw').2
    simpa using this

/-- Witness for C2 at a concrete input: one matched and one unmatched order. -/
theorem C2_outputs_partition_input_witness :
    (((validate_production_and_worklog [sampleProd "P1" "P1" 100]
          [sampleWl "P1" "E1" 40, sampleWl "P2" "E2" 50]).1.flatMap (fun e => e.2)
        ++ (validate_production_and_worklog [sampleProd "P1" "P1" 100]
          [sampleWl "P1" "E1" 40, sampleWl "P2" "E2" 50]).2.flatMap (fun e => e.2)).Perm
      ([sampleWl "P1" "E1" 40, sampleWl "P2" "E2" 50].map
        (fun w => setVld w (classValue [sampleProd "P1" "P1" 100]
          [sampleWl "P1" "E1" 40, sampleWl "P2" "E2" 50] w.order_no)))) :=
  (C2_outputs_partition_input [sampleProd "P1" "P1" 100]
    [sampleWl "P1" "E1" 40, sampleWl "P2" "E2" 50]).1

/-- C8: the reconciliation engine changes nothing but `validation_result`:
every record in either output equals an input worklog record with only its
`validation_result` field replaced, and `setVld` (the modelled mutation)
leaves every other field of the record untouched.  The engine is a total
function of the two record lists: it reads production records but returns
none, so production data is unchanged, and no input data can make it fail. -/
theorem C8_reconcile_mutates_only_validation_result (prods : List ProductionInfo)
    (wls : List EmployeeWorklog) :
    (∀ kv g, (kv, g) ∈ (validate_production_and_worklog prods wls).1 →
      ∀ w' ∈ g, ∃ w ∈ wls, w' = setVld w kv.2.value)
    ∧ (∀ k g, (k, g) ∈ (validate_production_and_worklog prods wls).2 →
      ∀ w' ∈ g, ∃ w ∈ wls, w' = setVld w VldResultEnum.VLD_PASSED.value)
    ∧ (∀ (w : EmployeeWorklog) (v : String),
      (setVld w v).id = w.id ∧ (setVld w v).order_no = w.order_no
      ∧ (setVld w v).model = w.model ∧ (setVld w v).brand_no = w.brand_no
      ∧ (setVld w v).employee_id = w.employee_id
      ∧ (setVld w v).employee_name = w.employee_name
      ∧ (setVld w v).job_type = w.job_type ∧ (setVld w v).quantity = w.quantity
      ∧ (setVld w v).performance_factor = w.performance_factor
      ∧ (setVld w v).performance_amount = w.performance_amount
      ∧ (setVld w v).work_date = w.work_date
      ∧ (setVld w v).upload_date = w.upload_date
      ∧ (setVld w v).created_at = w.created_at
      ∧ (setVld w v).updated_at = w.updated_at) := by
  refine ⟨?_, ?_, ?_⟩
  · rintro ⟨k, e⟩ g hg w' hw'
    rcases (mem_validate_exc_iff prods wls k e g).mp hg with
      ⟨he, _, _, hgeq⟩ | ⟨he, _, _, _, hgeq⟩
    · subst hgeq
      rcases List.mem_map.mp hw' with ⟨w, hw, rfl⟩
      rw [worklogByOrder_eq] at hw
      exact ⟨w, (List.mem_filter.mp hw).1, by rw [he]⟩
    · subst hgeq
      rcases List.mem_map.mp hw' with ⟨w, hw, rfl⟩
      rw [worklogByOrder_eq] at hw
      exact ⟨w, (List.mem_filter.mp hw).1, by rw [he]⟩
  · rintro k g hg w' hw'
    rcases (mem_validate_norm_iff prods wls k g).mp hg with ⟨_, _, _, hgeq⟩
    subst hgeq
    rcases List.mem_map.mp hw' with ⟨w, hw, rfl⟩
    rw [worklogByOrder_eq] at hw
    exact ⟨w, (List.mem_filter.mp hw).1, rfl⟩
  · intro w v
    exact ⟨rfl, rfl, rfl, rfl, rfl, rfl, rfl, rfl, rfl, rfl, rfl, rfl, rfl, rfl⟩

/-- Witness for C8: a record of the concrete `order-not-found` group is an
input record with only `validation_result` replaced. -/
theorem C8_reconcile_mutates_only_validation_result_witness :
    ∃ w ∈ [sampleWl "P9" "E1" 40],
      setVld (sampleWl "P9" "E1" 40) VldResultEnum.ORDER_NO_NOT_FOUND.value
        = setVld w (("P9", VldResultEnum.ORDER_NO_NOT_FOUND) :
            String × VldResultEnum).2.value :=
  (C8_reconcile_mutates_only_validation_result [] [sampleWl "P9" "E1" 40]).1
    ("P9", VldResultEnum.ORDER_NO_NOT_FOUND)
    ((worklogByOrder [sampleWl "P9" "E1" 40] "P9").map
      (fun w => setVld w VldResultEnum.ORDER_NO_NOT_FOUND.value))
    (by decide)
    (setVld (sampleWl "P9" "E1" 40) VldResultEnum.ORDER_NO_NOT_FOUND.value)
    (by decide)

/-! ## Shared parsing utilities — `src/app/utils/parse_util.py`

Python string/number primitives are re-implemented on character lists so that
every definition reduces in the kernel.  `str.strip` is modelled on Unicode
whitespace via `Char.isWhitespace`; numeric literals are modelled on the
common decimal grammar `[+-]digits[.digits]` shared by `int()`, `float()` and
`Decimal()` (exotic forms — exponents, underscores, NaN/Infinity — never
arise in the spreadsheet data and are not modelled). -/

/-- Python `str.strip()`. -/
def pyStrip (s : String) : String :=
  String.mk (((s.data.dropWhile Char.isWhitespace).reverse.dropWhile
    Char.isWhitespace).reverse)

/-- Value of a digit string, most significant first. -/
def digitsToNat (cs : List Char) : Nat :=
  cs.foldl (fun acc c => acc * 10 + (c.toNat - '0'.toNat)) 0

/-- Split a decimal literal into sign, integer digits and fraction digits;
fails unless the text is `[+-]digits[.digits]` with at least one digit. -/
def parseDecimalParts (cs : List Char) : Option (Bool × List Char × List Char) :=
  let signRest : Bool × List Char :=
    match cs with
    | '-' :: t => (true, t)
    | '+' :: t => (false, t)
    | _ => (false, cs)
  let neg := signRest.1
  let rest := signRest.2
  let ip := rest.takeWhile (fun c => !(decide (c = '.')))
  match rest.dropWhile (fun c => !(decide (c = '.'))) with
  | [] =>
    if !ip.isEmpty && ip.all Char.isDigit then some (neg, ip, []) else none
  | '.' :: fp =>
    if !(ip.isEmpty && fp.isEmpty) && ip.all Char.isDigit && fp.all Char.isDigit then
      some (neg, ip, fp)
    else none
  | _ :: _ => none

/-- Python `int(Decimal(s))`: parse a decimal literal and truncate toward
zero (`production_info.py` line 67). -/
def decimalToInt (s : String) : Option Int :=
  (parseDecimalParts s.data).map (fun p =>
    let n : Int := (digitsToNat p.2.1 : Int)
    if p.1 then -n else n)

/-- Python `float(s)` on a decimal literal, exact on `ℚ`. -/
def decimalToRat (s : String) : Option ℚ :=
  (parseDecimalParts s.data).map (fun p =>
    let n : ℚ := (digitsToNat p.2.1 : ℚ) + (digitsToNat p.2.2 : ℚ) / ((10 : ℚ) ^ p.2.2.length)
    if p.1 then -n else n)

/-- Python `int(s)`: optional sign followed by digits only. -/
def parseIntStr (s : String) : Option Int :=
  let signRest : Bool × List Char :=
    match s.data with
    | '-' :: t => (true, t)
    | '+' :: t => (false, t)
    | _ => (false, s.data)
  if !signRest.2.isEmpty && signRest.2.all Char.isDigit then
    some (if signRest.1 then -(digitsToNat signRest.2 : Int) else (digitsToNat signRest.2 : Int))
  else none

/-- Days per month with leap years, as `strptime` validates day-of-month. -/
def daysInMonth (y m : Int) : Int :=
  if m = 2 then (if (y % 4 = 0 ∧ ¬ y % 100 = 0) ∨ y % 400 = 0 then 29 else 28)
  else if m = 4 ∨ m = 6 ∨ m = 9 ∨ m = 11 then 30 else 31

/-- Build a `DT` only when `strptime` would accept the calendar date. -/
def mkValidDate (y m d : Int) : Option DT :=
  if 1 ≤ m ∧ m ≤ 12 ∧ 1 ≤ d ∧ d ≤ daysInMonth y m then some ⟨y, m, d⟩ else none

/-- Split a character list on a separator character. -/
def splitOnChar (sep : Char) : List Char → List (List Char)
  | [] => [[]]
  | c :: t =>
    if c = sep then [] :: splitOnChar sep t
    else
      match splitOnChar sep t with
      | [] => [[c]]
      | g :: gs => (c :: g) :: gs

/-- One `strptime` attempt with the given separator: three digit groups
(year up to 4 digits, month and day up to 2) forming a valid calendar date. -/
def tryParseDateSep (sep : Char) (cs : List Char) : Option DT :=
  match splitOnChar sep cs with
  | [ys, ms, ds] =>
    if ys.all Char.isDigit ∧ ms.all Char.isDigit ∧ ds.all Char.isDigit
        ∧ 1 ≤ ys.length ∧ ys.length ≤ 4 ∧ 1 ≤ ms.length ∧ ms.length ≤ 2
        ∧ 1 ≤ ds.length ∧ ds.length ≤ 2 then
      mkValidDate (digitsToNat ys : Int) (digitsToNat ms : Int) (digitsToNat ds : Int)
    else none
  | _ => none

/-- The date-text fallback chain of `_to_datetime` (`parse_util.py` lines
211-220): formats tried in order are Y/M/D, Y-M-D, Y.M.D; `None` otherwise. -/
def parseDateText (s : String) : Option DT :=
  match tryParseDateSep '/' s.data with
  | some d => some d
  | none =>
    match tryParseDateSep '-' s.data with
    | some d => some d
    | none => tryParseDateSep '.' s.data

/-! ## Production parser — `parse_production_excel` (`parse_util.py` 31-137)

The Excel is read with `dtype=str`, so every cell reaches the row loop as a
string (`none` models a NaN/empty cell).  Column presence (the `SchemaError`
check) happens before the row loop and is not claimed here. -/

/-- One raw production row after column mapping (`parse_util.py` lines 67-72). -/
structure RawProductionRow where
  order_no : Option String := none
  model : Option String := none
  brand_no : Option String := none
  doc_date : Option String := none
  job_type : Option String := none
  quantity : Option String := none
deriving DecidableEq, Repr

/-- `_to_datetime` on a `dtype=str` cell (`parse_util.py` lines 190-220):
`None`/empty give `None`, otherwise the stripped text is tried against the
three date formats. -/
def toDatetimeStr : Option String → Option DT
  | none => none
  | some s => if s = "" then none else parseDateText (pyStrip s)

/-- The `_strip_str` pydantic validator (`production_info.py` lines 53-58). -/
def stripStr : Option String → String
  | none => ""
  | some s => pyStrip s

/-- The `_quantity_positive` pydantic validator (`production_info.py` lines
60-72): `None` is rejected, the text is parsed as `int(Decimal(str(v)))`,
and the result must be strictly positive. -/
def quantityValidate : Option String → Except String Int
  | none => .error "quantity 不能为空"
  | some s =>
    match decimalToInt s with
    | none => .error "quantity 无法转换为整数"
    | some q => if q ≤ 0 then .error "quantity 必须为正整数" else .ok q

/-- Round half-up to two decimals, as `Decimal.quantize(0.01, ROUND_HALF_UP)`
on the positive values reaching it. -/
def quantize2 (q : ℚ) : ℚ := ((⌊q * 100 + 1 / 2⌋ : Int) : ℚ) / 100

/-- The `_pf_decimal` pydantic validator (`production_info.py` lines 74-83). -/
def pfValidate (v : ℚ) : Except String ℚ :=
  let v := if v = 0 then (1 : ℚ) else v
  if v ≤ 0 then .error "performance_factor 必须为正数" else .ok (quantize2 v)

/-- Construction `ProductionInfo(**payload)` (`parse_util.py` lines 119-134):
the payload carries the stripped strings, the raw quantity text, a constant
`Decimal("1.00")` performance factor, `date.today()` as upload date and the
parsed document date (falling back to the current time in the
`_to_naive_datetime` validator when it is `None`).  `worklog_no` is not in
the payload and keeps its default. -/
def mkProductionInfo (row : RawProductionRow) (docDT : Option DT) (now : DT) :
    Except String ProductionInfo :=
  match quantityValidate (row.quantity.map pyStrip) with
  | .error e => .error e
  | .ok q =>
    match pfValidate 1 with
    | .error e => .error e
    | .ok pf =>
      .ok { order_no := stripStr row.order_no
            model := stripStr row.model
            brand_no := stripStr row.brand_no
            quantity := q
            job_type := stripStr row.job_type
            performance_factor := pf
            upload_date := now
            created_at := docDT.getD now
            updated_at := docDT.getD now }

/-- Whether the month filter keeps a row (`parse_util.py` lines 106-117): with
no filter every row proceeds; with a filter, a row with an unparseable
document date is skipped, and otherwise the parsed date's year and month
must equal the filter. -/
def keptRow (fil : Option (Int × Int)) (row : RawProductionRow) : Bool :=
  match fil, toDatetimeStr row.doc_date with
  | none, _ => true
  | some _, none => false
  | some (fy, fm), some d => decide (d.year = fy) && decide (d.month = fm)

/-- The row loop of `parse_production_excel` (`parse_util.py` lines 99-137).
There is no try/except around the model construction: a row-level validation
error propagates and aborts the whole parse. -/
def parseProductionRows (rows : List RawProductionRow) (fil : Option (Int × Int))
    (now : DT) : Except String (List ProductionInfo) :=
  match rows with
  | [] => .ok []
  | row :: rest =>
    if keptRow fil row then
      match mkProductionInfo row (toDatetimeStr row.doc_date) now with
      | .error e => .error e
      | .ok obj => (parseProductionRows rest fil now).map (fun l => obj :: l)
    else parseProductionRows rest fil now

/-- `filter_month` validation (`parse_util.py` lines 80-96): six characters,
numeric year and month, month between 1 and 12. -/
def parseFilterMonth (fm : String) : Except String (Int × Int) :=
  if fm.length = 6 then
    let ys := fm.data.take 4
    let ms := fm.data.drop 4
    if ys.all Char.isDigit && ms.all Char.isDigit then
      let m : Int := (digitsToNat ms : Int)
      if 1 ≤ m ∧ m ≤ 12 then .ok ((digitsToNat ys : Int), m)
      else .error "filter_month 月份无效"
    else .error "filter_month 参数格式错误"
  else .error "filter_month 格式错误"

/-- `parse_production_excel` (`parse_util.py` lines 31-137), from the mapped
rows onward: validate the optional `filter_month`, then run the row loop. -/
def parse_production_excel (rows : List RawProductionRow)
    (filter_month : Option String) (now : DT) : Except String (List ProductionInfo) :=
  match filter_month with
  | none => parseProductionRows rows none now
  | some fm =>
    match parseFilterMonth fm with
    | .error e => .error e
    | .ok ff => parseProductionRows rows (some ff) now

theorem pfValidate_one : pfValidate 1 = .ok (quantize2 1) := by
  norm_num [pfValidate]

theorem exceptIsOk_iff {ε α : Type} (e : Except ε α) :
    e.isOk = true ↔ ∃ a, e = .ok a := by
  cases e <;> simp [Except.isOk, Except.toBool]

theorem mkProductionInfo_isOk (row : RawProductionRow) (docDT : Option DT) (now : DT)
    (h : (quantityValidate (row.quantity.map pyStrip)).isOk = true) :
    ∃ p, mkProductionInfo row docDT now = .ok p
      ∧ p.created_at = docDT.getD now ∧ p.updated_at = docDT.getD now := by
  cases hq : quantityValidate (row.quantity.map pyStrip) with
  | error e => rw [hq] at h; simp [Except.isOk, Except.toBool] at h
  | ok q =>
    refine ⟨{ order_no := stripStr row.order_no, model := stripStr row.model,
              brand_no := stripStr row.brand_no, quantity := q,
              job_type := stripStr row.job_type, performance_factor := quantize2 1,
              upload_date := now, created_at := docDT.getD now,
              updated_at := docDT.getD now }, ?_, rfl, rfl⟩
    simp [mkProductionInfo, hq, pfValidate_one]

/-- A production row that passes the production model validators. -/
def goodProdRow : RawProductionRow :=
  { order_no := some "P1", model := some "M", brand_no := some "B",
    doc_date := some "2025/01/15", job_type := some "J", quantity := some "10" }

/-- A production row whose quantity "0" fails `_quantity_positive`. -/
def badQtyProdRow : RawProductionRow :=
  { order_no := some "P2", model := some "M", brand_no := some "B",
    doc_date := some "2025/01/16", job_type := some "J", quantity := some "0" }

/-- Counterexample to C4: the production parser has no per-row error
recovery — one row with quantity `"0"` makes the whole parse fail, and the
valid row `goodProdRow` of the same file appears in no returned record list
(no record list is returned at all), although on its own it parses fine. -/
theorem C4_counterexample_row_error_aborts_file :
    parseProductionRows [goodProdRow, badQtyProdRow] none ⟨2025, 3, 1⟩
        = Except.error "quantity 必须为正整数"
    ∧ (∃ p, parseProductionRows [goodProdRow] none ⟨2025, 3, 1⟩ = Except.ok [p]) :=
  ⟨rfl, ⟨_, rfl⟩⟩

/-- C4 (amended): a row whose quantity is non-numeric or ≤ 0 raises a
row-level validation error that is not caught: if any row surviving the
month filter fails quantity validation, the entire parse fails with an
error and no record list is returned. -/
theorem C4_amended_row_error_aborts_parse (rows : List RawProductionRow)
    (fil : Option (Int × Int)) (now : DT) (row : RawProductionRow)
    (hrow : row ∈ rows) (hkept : keptRow fil row = true)
    (hbad : (quantityValidate (row.quantity.map pyStrip)).isOk = false) :
    ∃ e, parseProductionRows rows fil now = Except.error e := by
  induction rows with
  | nil => cases hrow
  | cons r rest ih =>
    rcases List.mem_cons.mp hrow with rfl | hrow'
    · cases hq : quantityValidate (row.quantity.map pyStrip) with
      | error e =>
        refine ⟨e, ?_⟩
        simp [parseProductionRows, hkept, mkProductionInfo, hq]
      | ok q => rw [hq] at hbad; simp [Except.isOk, Except.toBool] at hbad
    · rcases ih hrow' with ⟨e, he⟩
      by_cases hk : keptRow fil r = true
      · cases hm : mkProductionInfo r (toDatetimeStr r.doc_date) now with
        | error e' => exact ⟨e', by simp [parseProductionRows, hk, hm]⟩
        | ok obj => exact ⟨e, by simp [parseProductionRows, hk, hm, he, Except.map]⟩
      · exact ⟨e, by simp [parseProductionRows, hk, he]⟩

/-- Witness for the amended C4 at the concrete two-row file. -/
theorem C4_amended_row_error_aborts_parse_witness :
    ∃ e, parseProductionRows [goodProdRow, badQtyProdRow] none ⟨2025, 3, 1⟩
      = Except.error e :=
  C4_amended_row_error_aborts_parse [goodProdRow, badQtyProdRow] none ⟨2025, 3, 1⟩
    badQtyProdRow (by decide) rfl (by decide)

/-- C6: with a month filter, the production row loop keeps exactly the rows
whose parsed document date matches the filter's year and month (rows with
unparseable dates are dropped), pairing each kept row with its record in
order; without a filter every row is kept, and a row with an unparseable
document date gets `created_at`/`updated_at` equal to the current time.
Rows reaching model construction are assumed to pass quantity validation
(otherwise the parse aborts, see the C4 analysis). -/
theorem C6_filter_month_semantics (rows : List RawProductionRow) (fy fm : Int)
    (now : DT) :
    ((∀ row ∈ rows, keptRow (some (fy, fm)) row = true →
        (quantityValidate (row.quantity.map pyStrip)).isOk = true) →
      ∃ L, parseProductionRows rows (some (fy, fm)) now = .ok L
        ∧ List.Forall₂
            (fun row p => mkProductionInfo row (toDatetimeStr row.doc_date) now = .ok p)
            (rows.filter (keptRow (some (fy, fm)))) L)
    ∧ ((∀ row ∈ rows, (quantityValidate (row.quantity.map pyStrip)).isOk = true) →
      ∃ L, parseProductionRows rows none now = .ok L
        ∧ List.Forall₂
            (fun row p => mkProductionInfo row (toDatetimeStr row.doc_date) now = .ok p
              ∧ (toDatetimeStr row.doc_date = none →
                  p.created_at = now ∧ p.updated_at = now))
            rows L) := by
  constructor
  · intro hval
    induction rows with
    | nil => exact ⟨[], rfl, List.Forall₂.nil⟩
    | cons r rest ih =>
      have hv' : ∀ row ∈ rest, keptRow (some (fy, fm)) row = true →
          (quantityValidate (row.quantity.map pyStrip)).isOk = true :=
        fun row hr => hval row (List.mem_cons_of_mem _ hr)
      rcases ih hv' with ⟨L, hL, hF⟩
      by_cases hk : keptRow (some (fy, fm)) r = true
      · rcases mkProductionInfo_isOk r (toDatetimeStr r.doc_date) now
          (hval r (List.mem_cons_self _ _) hk) with ⟨p, hp, _, _⟩
        refine ⟨p :: L, ?_, ?_⟩
        · simp [parseProductionRows, hk, hp, hL, Except.map]
        · simp only [List.filter_cons, hk, if_pos]
          exact List.Forall₂.cons hp hF
      · refine ⟨L, ?_, ?_⟩
        · simp [parseProductionRows, hk, hL]
        · have hk' : keptRow (some (fy, fm)) r = false := by
            cases h : keptRow (some (fy, fm)) r
            · rfl
            · exact absurd h hk
          simpa [List.filter_cons, hk'] using hF
  · intro hval
    induction rows with
    | nil => exact ⟨[], rfl, List.Forall₂.nil⟩
    | cons r rest ih =>
      have hv' : ∀ row ∈ rest, (quantityValidate (row.quantity.map pyStrip)).isOk = true :=
        fun row hr => hval row (List.mem_cons_of_mem _ hr)
      rcases ih hv' with ⟨L, hL, hF⟩
      rcases mkProductionInfo_isOk r (toDatetimeStr r.doc_date) now
        (hval r (List.mem_cons_self _ _)) with ⟨p, hp, hc, hu⟩
      refine ⟨p :: L, ?_, ?_⟩
      · simp [parseProductionRows, keptRow, hp, hL, Except.map]
      · refine List.Forall₂.cons ⟨hp, fun hnone => ?_⟩ hF
        rw [hnone] at hc hu
        exact ⟨hc, hu⟩

/-- A production row dated February 2025. -/
def febProdRow : RawProductionRow :=
  { order_no := some "P3", model := some "M", brand_no := some "B",
    doc_date := some "2025/02/20", job_type := some "J", quantity := some "5" }

/-- A production row whose document date cannot be parsed. -/
def badDateProdRow : RawProductionRow :=
  { order_no := some "P4", model := some "M", brand_no := some "B",
    doc_date := some "soon", job_type := some "J", quantity := some "7" }

/-- Witness for C6, Scenario E style: filtering a January/February file by
202501 returns exactly the January rows with parsable dates. -/
theorem C6_filter_month_semantics_witness :
    ∃ L, parseProductionRows [goodProdRow, febProdRow, badDateProdRow]
        (some (2025, 1)) ⟨2025, 3, 1⟩ = .ok L
      ∧ List.Forall₂
          (fun row p => mkProductionInfo row (toDatetimeStr row.doc_date) ⟨2025, 3, 1⟩
            = .ok p)
          ([goodProdRow, febProdRow, badDateProdRow].filter (keptRow (some (2025, 1)))) L :=
  (C6_filter_month_semantics [goodProdRow, febProdRow, badDateProdRow] 2025 1
    ⟨2025, 3, 1⟩).1 (by decide)

/-! ## Worklog parser — `parse_sheet` / `parse_employee_worklogs_from_excel`
(`parse_util.py` lines 140-327)

The workbook is opened with `openpyxl` and `data_only=True`, so a cell value
is `None`, a string, an int, a float or a datetime — modelled by `Cell`.
String renderings of numeric/datetime cells (`str(value)`) only matter to
the claims through their shape (nonempty, not a date/number literal), which
the renderings below preserve. -/

/-- An `openpyxl` cell value. -/
inductive Cell where
  | cnone
  | cstr (s : String)
  | cint (n : Int)
  | cfloat (q : ℚ)
  | cdate (d : DT)
deriving DecidableEq, Repr

/-- Python `int(float)`: truncation toward zero. -/
def truncRat (q : ℚ) : Int := if 0 ≤ q then ⌊q⌋ else ⌈q⌉

/-- Python `str(float)`: always carries a decimal point (or rational slash in
the non-decimal model), so it never parses as an int or a 3-part date. -/
def pyFloatStr (q : ℚ) : String :=
  if q.den = 1 then toString q.num ++ ".0" else toString q

/-- Python `str(datetime)`: dash-and-colon text, never numeric. -/
def dtStr (d : DT) : String :=
  toString d.year ++ "-" ++ toString d.month ++ "-" ++ toString d.day ++ " 00:00:00"

/-- `_to_order_no` (`parse_util.py` lines 152-163): integers (and
integer-valued floats) render without a decimal point; everything else is
stringified and stripped; `None` gives the empty string. -/
def toOrderNo : Cell → String
  | .cnone => ""
  | .cint n => toString n
  | .cfloat q => if q.den = 1 then toString q.num else pyStrip (pyFloatStr q)
  | .cstr s => pyStrip s
  | .cdate d => pyStrip (dtStr d)

/-- `_to_int` (`parse_util.py` lines 166-176). -/
def toIntCell : Cell → Option Int
  | .cnone => none
  | .cstr s => if s = "" then none else parseIntStr (pyStrip s)
  | .cint n => some n
  | .cfloat q => some (truncRat q)
  | .cdate d => parseIntStr (pyStrip (dtStr d))

/-- `_to_float` (`parse_util.py` lines 179-187). -/
def toFloatCell : Cell → Option ℚ
  | .cnone => none
  | .cstr s => if s = "" then none else decimalToRat (pyStrip s)
  | .cint n => some (n : ℚ)
  | .cfloat q => some q
  | .cdate d => decimalToRat (pyStrip (dtStr d))

/-- `_to_datetime` on an `openpyxl` cell (`parse_util.py` lines 190-220):
datetime values pass through; strings try the three formats; numeric cells
stringify to something no format matches. -/
def toDatetimeCell : Cell → Option DT
  | .cnone => none
  | .cdate d => some d
  | .cstr s => if s = "" then none else parseDateText (pyStrip s)
  | .cint n => parseDateText (pyStrip (toString n))
  | .cfloat q => parseDateText (pyStrip (pyFloatStr q))

/-- The recognized header column indices (`parse_util.py` lines 236-241).
Python also records the unused titles 编号/圈数/面系数; only the five read
columns are kept here. -/
structure HeaderIdx where
  idx_order : Option Nat := none
  idx_date : Option Nat := none
  idx_qty : Option Nat := none
  idx_pf : Option Nat := none
  idx_pa : Option Nat := none
deriving DecidableEq, Repr

/-- Header detection (`parse_util.py` lines 233-234): the first cell is a
string whose strip equals the literal marker 编号.  (`openpyxl` never yields
an empty row tuple; an empty model row is conservatively not a header.) -/
def isHeaderRow (row : List Cell) : Bool :=
  match row.head? with
  | some (.cstr s) => decide (pyStrip s = "编号")
  | _ => false

/-- Build the column index map from a header row (`parse_util.py` lines
236-241); a repeated title keeps its last position, as the dict assignment
does. -/
def buildHeaderIdx (row : List Cell) : HeaderIdx :=
  row.enum.foldl (fun h ic =>
    match ic.2 with
    | .cstr s =>
      let t := pyStrip s
      if t = "生产订单号" then { h with idx_order := some ic.1 }
      else if t = "日期" then { h with idx_date := some ic.1 }
      else if t = "数量" then { h with idx_qty := some ic.1 }
      else if t = "绩效系数" then { h with idx_pf := some ic.1 }
      else if t = "绩效数量" then { h with idx_pa := some ic.1 }
      else h
    | _ => h) {}

/-- `row[idx] if idx is not None else None` (`parse_util.py` lines 257-272);
`openpyxl` pads rows to the sheet width, so an out-of-range index models as
an empty cell. -/
def getCell (row : List Cell) : Option Nat → Cell
  | none => .cnone
  | some i => row.getD i .cnone

/-- One cell of the blank-row test `c is None or str(c).strip() == ""`
(`parse_util.py` line 250): numeric and datetime cells stringify nonblank. -/
def cellBlank : Cell → Bool
  | .cnone => true
  | .cstr s => decide (pyStrip s = "")
  | _ => false

/-- Blank-row test (`parse_util.py` line 250). -/
def rowIsBlank (row : List Cell) : Bool := row.all cellBlank

/-- Processing of one data row after a header was found (`parse_util.py`
lines 249-306): skip blank rows, rows with an empty order number, rows with
an unparseable date and rows with a missing/non-positive performance amount;
default quantity to 1 and performance factor to 1.0 when missing or ≤ 0. -/
def rowRecord (h : HeaderIdx) (emp : String) (now : DT) (row : List Cell) :
    Option EmployeeWorklog :=
  if rowIsBlank row then none
  else
    let order_no := toOrderNo (getCell row h.idx_order)
    if order_no = "" then none
    else
      match toDatetimeCell (getCell row h.idx_date) with
      | none => none
      | some work_date =>
        let quantity :=
          match toIntCell (getCell row h.idx_qty) with
          | none => 1
          | some n => if n ≤ 0 then 1 else n
        let perf_factor :=
          match toFloatCell (getCell row h.idx_pf) with
          | none => (1 : ℚ)
          | some x => if x ≤ 0 then 1 else x
        match toFloatCell (getCell row h.idx_pa) with
        | none => none
        | some pa =>
          if pa ≤ 0 then none
          else
            some { order_no := order_no, employee_id := pyStrip emp,
                   quantity := quantity, performance_factor := perf_factor,
                   performance_amount := pa, work_date := work_date,
                   upload_date := now, created_at := now, updated_at := now }

/-- The row loop of `parse_sheet` (`parse_util.py` lines 231-308): a header
row (re)builds the column map; rows before any header are skipped; data rows
go through `rowRecord`. -/
def parseSheetGo (emp : String) (now : DT) :
    Option HeaderIdx → List (List Cell) → List EmployeeWorklog
  | _, [] => []
  | hIdx, row :: rest =>
    if isHeaderRow row then parseSheetGo emp now (some (buildHeaderIdx row)) rest
    else
      match hIdx with
      | none => parseSheetGo emp now none rest
      | some h =>
        match rowRecord h emp now row with
        | some w => w :: parseSheetGo emp now (some h) rest
        | none => parseSheetGo emp now (some h) rest

/-- `parse_sheet` (`parse_util.py` lines 223-308). -/
def parse_sheet (rows : List (List Cell)) (emp : String) (now : DT) :
    List EmployeeWorklog :=
  parseSheetGo emp now none rows

/-- `parse_employee_worklogs_from_excel` (`parse_util.py` lines 311-327):
every sheet is parsed with its name as the employee id and the results are
concatenated in sheet order. -/
def parse_employee_worklogs_from_excel (sheets : List (String × List (List Cell)))
    (now : DT) : List EmployeeWorklog :=
  sheets.flatMap (fun sh => parse_sheet sh.2 sh.1 now)

theorem parseSheetGo_mem (emp : String) (now : DT) :
    ∀ (rows : List (List Cell)) (hIdx : Option HeaderIdx) (w : EmployeeWorklog),
      w ∈ parseSheetGo emp now hIdx rows →
      ∃ hh rrow, rrow ∈ rows ∧ rowRecord hh emp now rrow = some w := by
  intro rows
  induction rows with
  | nil => intro hIdx w hw; cases hw
  | cons row rest ih =>
    intro hIdx w hw
    cases hIdx with
    | none =>
      simp only [parseSheetGo] at hw
      by_cases hh : isHeaderRow row = true
      · rw [if_pos hh] at hw
        rcases ih _ w hw with ⟨h', r', hr', hrec⟩
        exact ⟨h', r', List.mem_cons_of_mem _ hr', hrec⟩
      · rw [if_neg hh] at hw
        rcases ih _ w hw with ⟨h', r', hr', hrec⟩
        exact ⟨h', r', List.mem_cons_of_mem _ hr', hrec⟩
    | some h =>
      simp only [parseSheetGo] at hw
      by_cases hh : isHeaderRow row = true
      · rw [if_pos hh] at hw
        rcases ih _ w hw with ⟨h', r', hr', hrec⟩
        exact ⟨h', r', List.mem_cons_of_mem _ hr', hrec⟩
      · rw [if_neg hh] at hw
        cases hrec : rowRecord h emp now row with
        | none =>
          simp only [hrec] at hw
          rcases ih _ w hw with ⟨h', r', hr', hrec'⟩
          exact ⟨h', r', List.mem_cons_of_mem _ hr', hrec'⟩
        | some w' =>
          simp only [hrec] at hw
          rcases List.mem_cons.mp hw with rfl | hw'
          · exact ⟨h, row, List.mem_cons_self _ _, hrec⟩
          · rcases ih _ w hw' with ⟨h', r', hr', hrec'⟩
            exact ⟨h', r', List.mem_cons_of_mem _ hr', hrec'⟩

/-- C5: for every row processed after a header: a missing or non-positive
quantity is replaced by the default 1 and never causes rejection; a missing
or non-positive performance factor is replaced by 1.0; a missing or
non-positive performance amount skips the row entirely, and these (with
blank rows, empty order numbers and unparseable dates) are the only reasons
a processed row is skipped; every record of a sheet parse comes from some
processed row. -/
theorem C5_worklog_row_defaults_and_skips (h : HeaderIdx) (emp : String) (now : DT)
    (row : List Cell) :
    (∀ w, rowRecord h emp now row = some w →
      ((toIntCell (getCell row h.idx_qty) = none
          ∨ ∃ n, toIntCell (getCell row h.idx_qty) = some n ∧ n ≤ 0) →
        w.quantity = 1)
      ∧ ((toFloatCell (getCell row h.idx_pf) = none
          ∨ ∃ x, toFloatCell (getCell row h.idx_pf) = some x ∧ x ≤ 0) →
        w.performance_factor = 1))
    ∧ ((toFloatCell (getCell row h.idx_pa) = none
        ∨ ∃ x, toFloatCell (getCell row h.idx_pa) = some x ∧ x ≤ 0) →
      rowRecord h emp now row = none)
    ∧ (rowRecord h emp now row = none →
      rowIsBlank row = true
      ∨ toOrderNo (getCell row h.idx_order) = ""
      ∨ toDatetimeCell (getCell row h.idx_date) = none
      ∨ toFloatCell (getCell row h.idx_pa) = none
      ∨ ∃ x, toFloatCell (getCell row h.idx_pa) = some x ∧ x ≤ 0)
    ∧ (∀ rows w, w ∈ parse_sheet rows emp now →
      ∃ hh rrow, rrow ∈ rows ∧ rowRecord hh emp now rrow = some w) := by
  refine ⟨?_, ?_, ?_, ?_⟩
  · intro w hw
    by_cases hb : rowIsBlank row = true
    · simp [rowRecord, hb] at hw
    · by_cases ho : toOrderNo (getCell row h.idx_order) = ""
      · simp [rowRecord, hb, ho] at hw
      · cases hd : toDatetimeCell (getCell row h.idx_date) with
        | none => simp [rowRecord, hb, ho, hd] at hw
        | some d =>
          cases hpa : toFloatCell (getCell row h.idx_pa) with
          | none => simp [rowRecord, hb, ho, hd, hpa] at hw
          | some pa =>
            by_cases hple : pa ≤ 0
            · simp [rowRecord, hb, ho, hd, hpa, hple] at hw
            · simp only [rowRecord, hb, ho, hd, hpa, hple, if_neg, if_false,
                Bool.not_eq_true] at hw
              injection hw with hw'
              subst hw'
              constructor
              · rintro (hq | ⟨n, hn, hle⟩)
                · simp [hq]
                · simp [hn, hle]
              · rintro (hf | ⟨x, hx, hxle⟩)
                · simp [hf]
                · simp [hx, hxle]
  · rintro hbad
    by_cases hb : rowIsBlank row = true
    · simp [rowRecord, hb]
    · by_cases ho : toOrderNo (getCell row h.idx_order) = ""
      · simp [rowRecord, hb, ho]
      · cases hd : toDatetimeCell (getCell row h.idx_date) with
        | none => simp [rowRecord, hb, ho, hd]
        | some d =>
          rcases hbad with hpa | ⟨x, hx, hxle⟩
          · simp [rowRecord, hb, ho, hd, hpa]
          · simp [rowRecord, hb, ho, hd, hx, hxle]
  · intro hnone
    by_cases hb : rowIsBlank row = true
    · exact Or.inl hb
    · by_cases ho : toOrderNo (getCell row h.idx_order) = ""
      · exact Or.inr (Or.inl ho)
      · cases hd : toDatetimeCell (getCell row h.idx_date) with
        | none => exact Or.inr (Or.inr (Or.inl rfl))
        | some d =>
          cases hpa : toFloatCell (getCell row h.idx_pa) with
          | none => exact Or.inr (Or.inr (Or.inr (Or.inl rfl)))
          | some pa =>
            by_cases hple : pa ≤ 0
            · exact Or.inr (Or.inr (Or.inr (Or.inr ⟨pa, rfl, hple⟩)))
            · exact absurd hnone (by simp [rowRecord, hb, ho, hd, hpa, hple])
  · exact fun rows w hw => parseSheetGo_mem emp now rows none w hw

/-- A well-formed worklog header row. -/
def sampleHeaderRow : List Cell :=
  [Cell.cstr "编号", Cell.cstr "日期", Cell.cstr "生产订单号", Cell.cstr "数量",
   Cell.cstr "圈数", Cell.cstr "面系数", Cell.cstr "绩效系数", Cell.cstr "绩效数量"]

/-- A data row whose performance-amount cell is empty. -/
def noPaRow : List Cell :=
  [Cell.cint 1, Cell.cdate ⟨2025, 1, 5⟩, Cell.cstr "P1", Cell.cint 3,
   Cell.cnone, Cell.cnone, Cell.cfloat 2, Cell.cnone]

/-- Witness for C5: the concrete row with an empty performance-amount cell
is skipped. -/
theorem C5_worklog_row_defaults_and_skips_witness :
    rowRecord (buildHeaderIdx sampleHeaderRow) "E1" dJan noPaRow = none :=
  (C5_worklog_row_defaults_and_skips (buildHeaderIdx sampleHeaderRow) "E1" dJan
    noPaRow).2.1 (Or.inl (by decide))

/-- C10: a worklog sheet containing no header-marker row (no row whose first
cell is the literal 编号) parses to the empty record list — every row is
silently ignored — and such a sheet contributes nothing to the workbook
parse. -/
theorem C10_sheet_without_header_yields_nothing (rows : List (List Cell))
    (emp : String) (now : DT) (hnone : ∀ row ∈ rows, isHeaderRow row = false) :
    parse_sheet rows emp now = []
    ∧ ∀ (pre post : List (String × List (List Cell))) (nm : String),
        parse_employee_worklogs_from_excel (pre ++ (nm, rows) :: post) now
          = parse_employee_worklogs_from_excel pre now
            ++ parse_employee_worklogs_from_excel post now := by
  have hmain : ∀ (l : List (List Cell)), (∀ row ∈ l, isHeaderRow row = false) →
      ∀ (e : String), parseSheetGo e now none l = [] := by
    intro l
    induction l with
    | nil => intro _ _; rfl
    | cons row rest ih =>
      intro hn e
      simp only [parseSheetGo]
      rw [if_neg (by simp [hn row (List.mem_cons_self _ _)])]
      exact ih (fun r hr => hn r (List.mem_cons_of_mem _ hr)) e
  have h1 : parse_sheet rows emp now = [] := hmain rows hnone emp
  refine ⟨h1, ?_⟩
  intro pre post nm
  rw [parse_employee_worklogs_from_excel, List.flatMap_append, List.flatMap_cons]
  rw [show parse_sheet rows nm now = [] from hmain rows hnone nm]
  simp [parse_employee_worklogs_from_excel]

/-- Witness for C10: a concrete misformatted sheet parses to nothing. -/
theorem C10_sheet_without_header_yields_nothing_witness :
    parse_sheet [[Cell.cstr "随便写的"], noPaRow] "E7" dJan = [] :=
  (C10_sheet_without_header_yields_nothing [[Cell.cstr "随便写的"], noPaRow] "E7" dJan
    (by decide)).1

/-! ## Upsert store — `src/app/utils/db_utils.py`

The database tables are modelled as row lists in insertion order;
`query(...).filter(key).first()` is first-match lookup, an update mutates
that row in place, an insert appends.  Both upserts share this shape, so the
development is generic in the row/record types, the dedup key, the update
and the insert, and is instantiated twice below. -/

/-- A persisted `production_info` row.  The ORM class `ProductionInfoDB` is
referenced throughout the repository but its declaration is not under
`src/`; its columns are modelled from the spec's ProductionRecord attributes
and the fields `upsert_production_info` and the API layer touch. -/
structure ProductionInfoDB where
  id : Option Int := none
  order_no : String
  model : String
  brand_no : String
  quantity : Int
  job_type : String
  worklog_no : String := ""
  performance_factor : ℚ
  upload_date : DT
  created_at : DT
  updated_at : DT
deriving DecidableEq, Repr

/-- A persisted `employee_worklog` row (`employee_worklog.py` lines 26-65). -/
structure EmployeeWorklogDB where
  id : Option Int := none
  order_no : String
  model : Option String
  brand_no : Option String
  employee_id : String
  employee_name : Option String
  job_type : String
  quantity : Int
  performance_factor : ℚ
  performance_amount : ℚ
  work_date : DT
  upload_date : DT
  validation_result : String
  created_at : DT
  updated_at : DT
deriving DecidableEq, Repr

section UpsertGeneric

variable {Rec Row Key NU U : Type} [DecidableEq Key]
variable (rowKey : Row → Key) (recKey : Rec → Key)
variable (mkRow : Rec → Row) (applyU : Row → Rec → Row)
variable (nonUpd : Row → NU) (upd : Row → U) (updOf : Rec → U)

/-- Update the first row matching the record's dedup key, if any
(`db_utils.py`: `query(...).filter(and_(...)).first()` then field
assignments). -/
def updateFirst : List Row → Rec → Option (List Row)
  | [], _ => none
  | b :: t, r =>
    if rowKey b = recKey r then some (applyU b r :: t)
    else (updateFirst t r).map (fun l => b :: l)

/-- Process one record: update the first key match in place, else append a
new row (`db_utils.py` lines 34-68 / 89-133). -/
def upsertOne (db : List Row) (r : Rec) : List Row :=
  match updateFirst rowKey recKey applyU db r with
  | some db' => db'
  | none => db ++ [mkRow r]

/-- Process a record list left to right. -/
def upsertList (db : List Row) (rs : List Rec) : List Row :=
  rs.foldl (upsertOne rowKey recKey mkRow applyU) db

/-- The last record of the list carrying the given key. -/
def lastWithKey : List Rec → Key → Option Rec
  | [], _ => none
  | r :: s, k =>
    match lastWithKey s k with
    | some r' => some r'
    | none => if recKey r = k then some r else none

/-- First row with the given key. -/
def firstRowWithKey (B : List Row) (k : Key) : Option Row :=
  B.find? (fun b => decide (rowKey b = k))

theorem lastWithKey_cons_ne (r : Rec) (s : List Rec) (k : Key)
    (h : ¬ recKey r = k) :
    lastWithKey recKey (r :: s) k = lastWithKey recKey s k := by
  rw [lastWithKey]
  cases lastWithKey recKey s k with
  | some r' => rfl
  | none => rw [if_neg h]

theorem lastWithKey_mem (s : List Rec) (k : Key) (r' : Rec)
    (h : lastWithKey recKey s k = some r') : r' ∈ s := by
  induction s with
  | nil => cases h
  | cons r s ih =>
    rw [lastWithKey] at h
    cases hl : lastWithKey recKey s k with
    | some r'' =>
      rw [hl] at h
      injection h with h2
      subst h2
      exact List.mem_cons_of_mem _ (ih hl)
    | none =>
      rw [hl] at h
      by_cases hr : recKey r = k
      · rw [if_pos hr] at h
        injection h with h2
        subst h2
        exact List.mem_cons_self _ _
      · rw [if_neg hr] at h; cases h

theorem lastWithKey_key (s : List Rec) (k : Key) (r' : Rec)
    (h : lastWithKey recKey s k = some r') : recKey r' = k := by
  induction s with
  | nil => cases h
  | cons r s ih =>
    rw [lastWithKey] at h
    cases hl : lastWithKey recKey s k with
    | some r'' =>
      rw [hl] at h
      injection h with h2
      subst h2
      exact ih hl
    | none =>
      rw [hl] at h
      by_cases hr : recKey r = k
      · rw [if_pos hr] at h
        injection h with h2
        subst h2
        exact hr
      · rw [if_neg hr] at h; cases h

theorem lastWithKey_append_single (t : List Rec) (r : Rec) (k : Key) :
    lastWithKey recKey (t ++ [r]) k
      = if recKey r = k then some r else lastWithKey recKey t k := by
  induction t with
  | nil => rfl
  | cons x t ih =>
    by_cases hr : recKey r = k
    · rw [List.cons_append, lastWithKey, ih, if_pos hr, if_pos hr]
    · rw [List.cons_append, lastWithKey, ih, if_neg hr, if_neg hr]
      conv_rhs => rw [lastWithKey]

theorem lastWithKey_filter_ne (s : List Rec) (k k0 : Key) (hne : ¬ k = k0) :
    lastWithKey recKey (s.filter (fun r => !(decide (recKey r = k0)))) k
      = lastWithKey recKey s k := by
  induction s with
  | nil => rfl
  | cons r s ih =>
    rw [List.filter_cons]
    by_cases hc : recKey r = k0
    · rw [if_neg (by simp [hc])]
      have hne2 : ¬ recKey r = k := fun h0 => hne (h0.symm.trans hc)
      rw [ih, lastWithKey_cons_ne recKey r s k hne2]
    · rw [if_pos (by simp [hc])]
      rw [lastWithKey, ih]
      conv_rhs => rw [lastWithKey]

theorem lastWithKey_self_mem (s : List Rec) (r : Rec) (hr : r ∈ s) :
    ∃ r'', lastWithKey recKey s (recKey r) = some r'' := by
  induction s with
  | nil => cases hr
  | cons x s ih =>
    rw [lastWithKey]
    cases hl : lastWithKey recKey s (recKey r) with
    | some r'' => exact ⟨r'', rfl⟩
    | none =>
      rcases List.mem_cons.mp hr with h0 | hr'
      · refine ⟨x, ?_⟩
        show (if recKey x = recKey r then some x else none) = some x
        rw [h0, if_pos rfl]
      · exfalso
        rcases ih hr' with ⟨r'', h''⟩
        rw [h''] at hl
        cases hl

theorem firstRowWithKey_cons (b : Row) (B : List Row) (k : Key) :
    firstRowWithKey rowKey (b :: B) k
      = if rowKey b = k then some b else firstRowWithKey rowKey B k := by
  by_cases h : rowKey b = k
  · rw [firstRowWithKey, List.find?_cons_of_pos _ (by simp [h]), if_pos h]
  · rw [firstRowWithKey, List.find?_cons_of_neg _ (by simp [h]), if_neg h]
    rfl

theorem upsertOne_cons_ne (x : Row) (xs : List Row) (r : Rec)
    (hx : ¬ rowKey x = recKey r) :
    upsertOne rowKey recKey mkRow applyU (x :: xs) r
      = x :: upsertOne rowKey recKey mkRow applyU xs r := by
  simp only [upsertOne, updateFirst, if_neg hx]
  cases h : updateFirst rowKey recKey applyU xs r with
  | some l => simp [h]
  | none => simp [h]

theorem upsertOne_cons_eq (x : Row) (xs : List Row) (r : Rec)
    (hx : rowKey x = recKey r) :
    upsertOne rowKey recKey mkRow applyU (x :: xs) r = applyU x r :: xs := by
  simp only [upsertOne, updateFirst, if_pos hx]

theorem firstRow_upsertOne_self
    (hUpdNon : ∀ b r, nonUpd (applyU b r) = nonUpd b)
    (hUpdUpd : ∀ b r, upd (applyU b r) = updOf r)
    (hNewKey : ∀ r, rowKey (mkRow r) = recKey r)
    (hNewUpd : ∀ r, upd (mkRow r) = updOf r)
    (hKeyNon : ∀ a b, nonUpd a = nonUpd b → rowKey a = rowKey b)
    (D : List Row) (r : Rec) :
    ∃ b, firstRowWithKey rowKey (upsertOne rowKey recKey mkRow applyU D r) (recKey r)
        = some b
      ∧ upd b = updOf r := by
  induction D with
  | nil =>
    refine ⟨mkRow r, ?_, hNewUpd r⟩
    show firstRowWithKey rowKey ([] ++ [mkRow r]) (recKey r) = some (mkRow r)
    rw [List.nil_append, firstRowWithKey_cons rowKey, if_pos (hNewKey r)]
  | cons x xs ih =>
    by_cases hx : rowKey x = recKey r
    · refine ⟨applyU x r, ?_, hUpdUpd x r⟩
      rw [upsertOne_cons_eq rowKey recKey mkRow applyU x xs r hx,
        firstRowWithKey_cons rowKey,
        if_pos ((hKeyNon _ _ (hUpdNon x r)).trans hx)]
    · rcases ih with ⟨b, hb, hub⟩
      refine ⟨b, ?_, hub⟩
      rw [upsertOne_cons_ne rowKey recKey mkRow applyU x xs r hx,
        firstRowWithKey_cons rowKey, if_neg hx]
      exact hb

theorem firstRow_upsertOne_ne
    (hUpdNon : ∀ b r, nonUpd (applyU b r) = nonUpd b)
    (hNewKey : ∀ r, rowKey (mkRow r) = recKey r)
    (hKeyNon : ∀ a b, nonUpd a = nonUpd b → rowKey a = rowKey b)
    (D : List Row) (r : Rec) (k : Key) (hk : ¬ k = recKey r) :
    firstRowWithKey rowKey (upsertOne rowKey recKey mkRow applyU D r) k
      = firstRowWithKey rowKey D k := by
  induction D with
  | nil =>
    show firstRowWithKey rowKey ([] ++ [mkRow r]) k = firstRowWithKey rowKey [] k
    rw [List.nil_append, firstRowWithKey_cons rowKey,
      if_neg (fun h0 => hk (((hNewKey r).symm.trans h0).symm))]
  | cons x xs ih =>
    by_cases hx : rowKey x = recKey r
    · rw [upsertOne_cons_eq rowKey recKey mkRow applyU x xs r hx,
        firstRowWithKey_cons rowKey, firstRowWithKey_cons rowKey]
      have hxk : ¬ rowKey x = k := fun h0 => hk (h0.symm.trans hx)
      rw [if_neg (fun h0 => hxk ((hKeyNon _ _ (hUpdNon x r)).symm.trans h0)),
        if_neg hxk]
    · rw [upsertOne_cons_ne rowKey recKey mkRow applyU x xs r hx,
        firstRowWithKey_cons rowKey, firstRowWithKey_cons rowKey]
      by_cases hxk : rowKey x = k
      · rw [if_pos hxk, if_pos hxk]
      · rw [if_neg hxk, if_neg hxk]
        exact ih

theorem upsertList_append_single (d : List Row) (t : List Rec) (r : Rec) :
    upsertList rowKey recKey mkRow applyU d (t ++ [r])
      = upsertOne rowKey recKey mkRow applyU
          (upsertList rowKey recKey mkRow applyU d t) r := by
  rw [upsertList, upsertList, List.foldl_append]
  rfl

/-- After a full upsert run, the first row carrying a key holds the update
values of the last input record with that key. -/
theorem upsertList_last_write
    (hUpdNon : ∀ b r, nonUpd (applyU b r) = nonUpd b)
    (hUpdUpd : ∀ b r, upd (applyU b r) = updOf r)
    (hNewKey : ∀ r, rowKey (mkRow r) = recKey r)
    (hNewUpd : ∀ r, upd (mkRow r) = updOf r)
    (hKeyNon : ∀ a b, nonUpd a = nonUpd b → rowKey a = rowKey b)
    (rs : List Rec) :
    ∀ (d : List Row) (k : Key) (r' : Rec),
      lastWithKey recKey rs k = some r' →
      ∃ b, firstRowWithKey rowKey (upsertList rowKey recKey mkRow applyU d rs) k
          = some b
        ∧ upd b = updOf r' := by
  induction rs using List.reverseRecOn with
  | nil => intro d k r' h; cases h
  | append_singleton t r ih =>
    intro d k r' h
    rw [lastWithKey_append_single recKey t r k] at h
    rw [upsertList_append_single rowKey recKey mkRow applyU d t r]
    by_cases hk : recKey r = k
    · rw [if_pos hk] at h
      injection h with h2
      subst h2
      subst hk
      exact firstRow_upsertOne_self rowKey recKey mkRow applyU nonUpd upd updOf
        hUpdNon hUpdUpd hNewKey hNewUpd hKeyNon _ _
    · rw [if_neg hk] at h
      rcases ih d k r' h with ⟨b, hb, hub⟩
      refine ⟨b, ?_, hub⟩
      rw [firstRow_upsertOne_ne rowKey recKey mkRow applyU nonUpd
        hUpdNon hNewKey hKeyNon _ r k (fun h0 => hk h0.symm)]
      exact hb

/-- Simulation invariant between the state of a second upsert run (left) and
the final state of the first run (right): rows agree outside the update
fields, and a row's update fields either already agree or will be written by
a pending record (the last one in `s` with that row's key).  Once a key's
first row has been passed, deeper rows with the same key must agree, as
first-match updates never reach them. -/
def UpsInv : List Rec → List Row → List Row → Prop
  | _, [], [] => True
  | s, a :: A, b :: B =>
      nonUpd a = nonUpd b
      ∧ (match lastWithKey recKey s (rowKey b) with
         | some r' => upd b = updOf r'
         | none => upd a = upd b)
      ∧ UpsInv (s.filter (fun r0 => !(decide (recKey r0 = rowKey b)))) A B
  | _, _, _ => False

theorem UpsInv_step
    (hUpdNon : ∀ b r, nonUpd (applyU b r) = nonUpd b)
    (hUpdUpd : ∀ b r, upd (applyU b r) = updOf r)
    (hKeyNon : ∀ a b, nonUpd a = nonUpd b → rowKey a = rowKey b)
    (r : Rec) (A : List Row) :
    ∀ (s : List Rec) (B : List Row),
      UpsInv rowKey recKey nonUpd upd updOf (r :: s) A B →
      (∃ b ∈ B, rowKey b = recKey r) →
      UpsInv rowKey recKey nonUpd upd updOf s
        (upsertOne rowKey recKey mkRow applyU A r) B := by
  induction A with
  | nil =>
    intro s B hInv hB
    cases B with
    | nil => rcases hB with ⟨b, hb, _⟩; cases hb
    | cons b B => exact False.elim hInv
  | cons a A ih =>
    intro s B hInv hB
    cases B with
    | nil => exact False.elim hInv
    | cons b B =>
      obtain ⟨hNU, hU, hT⟩ := hInv
      have hKab : rowKey a = rowKey b := hKeyNon _ _ hNU
      by_cases hk : rowKey b = recKey r
      · rw [upsertOne_cons_eq rowKey recKey mkRow applyU a A r (hKab.trans hk)]
        refine ⟨(hUpdNon a r).trans hNU, ?_, ?_⟩
        · cases hl : lastWithKey recKey s (rowKey b) with
          | some r'' =>
            have h2 : lastWithKey recKey (r :: s) (rowKey b) = some r'' := by
              rw [lastWithKey, hl]
            rw [h2] at hU
            exact hU
          | none =>
            have h2 : lastWithKey recKey (r :: s) (rowKey b) = some r := by
              rw [lastWithKey, hl, if_pos hk.symm]
            rw [h2] at hU
            rw [hUpdUpd]
            exact hU.symm
        · have h3 : (r :: s).filter (fun r0 => !(decide (recKey r0 = rowKey b)))
              = s.filter (fun r0 => !(decide (recKey r0 = rowKey b))) := by
            rw [List.filter_cons, if_neg (by simp [hk.symm])]
          rw [h3] at hT
          exact hT
      · have hka : ¬ rowKey a = recKey r := fun h0 => hk (hKab.symm.trans h0)
        rw [upsertOne_cons_ne rowKey recKey mkRow applyU a A r hka]
        refine ⟨hNU, ?_, ?_⟩
        · have h2 : lastWithKey recKey (r :: s) (rowKey b)
              = lastWithKey recKey s (rowKey b) :=
            lastWithKey_cons_ne recKey r s (rowKey b) (fun h0 => hk h0.symm)
          rw [h2] at hU
          exact hU
        · have h3 : (r :: s).filter (fun r0 => !(decide (recKey r0 = rowKey b)))
              = r :: s.filter (fun r0 => !(decide (recKey r0 = rowKey b))) := by
            rw [List.filter_cons, if_pos (by simp only [Bool.not_eq_true', decide_eq_false_iff_not]; exact fun h0 => hk h0.symm)]
          rw [h3] at hT
          have hB' : ∃ b' ∈ B, rowKey b' = recKey r := by
            rcases hB with ⟨b', hb', hkb⟩
            rcases List.mem_cons.mp hb' with rfl | hb''
            · exact absurd hkb hk
            · exact ⟨b', hb'', hkb⟩
          exact ih _ B hT hB'

theorem UpsInv_run
    (hUpdNon : ∀ b r, nonUpd (applyU b r) = nonUpd b)
    (hUpdUpd : ∀ b r, upd (applyU b r) = updOf r)
    (hKeyNon : ∀ a b, nonUpd a = nonUpd b → rowKey a = rowKey b) :
    ∀ (s : List Rec) (A B : List Row),
      UpsInv rowKey recKey nonUpd upd updOf s A B →
      (∀ r ∈ s, ∃ b ∈ B, rowKey b = recKey r) →
      UpsInv rowKey recKey nonUpd upd updOf []
        (upsertList rowKey recKey mkRow applyU A s) B := by
  intro s
  induction s with
  | nil => intro A B h _; exact h
  | cons r s ih =>
    intro A B hInv hKeys
    have h1 : upsertList rowKey recKey mkRow applyU A (r :: s)
        = upsertList rowKey recKey mkRow applyU
            (upsertOne rowKey recKey mkRow applyU A r) s := rfl
    rw [h1]
    exact ih _ B
      (UpsInv_step rowKey recKey mkRow applyU nonUpd upd updOf
        hUpdNon hUpdUpd hKeyNon r A s B hInv (hKeys r (List.mem_cons_self _ _)))
      (fun r' hr' => hKeys r' (List.mem_cons_of_mem _ hr'))

theorem UpsInv_base :
    ∀ (B : List Row) (s : List Rec),
      (∀ k r', lastWithKey recKey s k = some r' →
        ∀ b, firstRowWithKey rowKey B k = some b → upd b = updOf r') →
      UpsInv rowKey recKey nonUpd upd updOf s B B := by
  intro B
  induction B with
  | nil => intro s _; exact trivial
  | cons b B ih =>
    intro s H
    refine ⟨rfl, ?_, ?_⟩
    · cases hl : lastWithKey recKey s (rowKey b) with
      | none => rfl
      | some r' =>
        exact H _ _ hl b (by rw [firstRowWithKey_cons rowKey, if_pos rfl])
    · apply ih
      intro k r' hl' b'' hb''
      have hkr : recKey r' = k := lastWithKey_key recKey _ _ _ hl'
      have hmem : r' ∈ s.filter (fun r0 => !(decide (recKey r0 = rowKey b))) :=
        lastWithKey_mem recKey _ _ _ hl'
      have hprop : ¬ recKey r' = rowKey b := by
        have h2 := (List.mem_filter.mp hmem).2
        simpa using h2
      have hk_ne : ¬ k = rowKey b := fun h0 => hprop (hkr.trans h0)
      have hl2 : lastWithKey recKey s k = some r' := by
        rw [← lastWithKey_filter_ne recKey s k (rowKey b) hk_ne]
        exact hl'
      apply H k r' hl2 b''
      rw [firstRowWithKey_cons rowKey, if_neg (fun h0 => hk_ne h0.symm)]
      exact hb''

theorem UpsInv_nil_strip :
    ∀ (A B : List Row),
      UpsInv rowKey recKey nonUpd upd updOf [] A B →
      A.map (fun x => (nonUpd x, upd x)) = B.map (fun x => (nonUpd x, upd x)) := by
  intro A
  induction A with
  | nil =>
    intro B h
    cases B with
    | nil => rfl
    | cons b B => exact False.elim h
  | cons a A ih =>
    intro B h
    cases B with
    | nil => exact False.elim h
    | cons b B =>
      obtain ⟨hNU, hU, hT⟩ := h
      have hU' : upd a = upd b := hU
      have hT' : UpsInv rowKey recKey nonUpd upd updOf [] A B := hT
      simp only [List.map_cons]
      rw [hNU, hU']
      exact congrArg (List.cons _) (ih B hT')

theorem upsertLoop_spec :
    ∀ (rs : List Rec) (db : List Row) (c : Nat),
      rs.foldl (fun st r => (upsertOne rowKey recKey mkRow applyU st.1 r, st.2 + 1))
          (db, c)
        = (upsertList rowKey recKey mkRow applyU db rs, c + rs.length) := by
  intro rs
  induction rs with
  | nil => intro db c; simp [upsertList]
  | cons r rs ih =>
    intro db c
    rw [List.foldl_cons, ih]
    have h1 : upsertList rowKey recKey mkRow applyU db (r :: rs)
        = upsertList rowKey recKey mkRow applyU
            (upsertOne rowKey recKey mkRow applyU db r) rs := rfl
    rw [h1, List.length_cons]
    congr 1
    omega

/-- The whole idempotence argument, generically: re-running an upsert batch
on its own output leaves every row unchanged outside the update view, where
the update view is `(nonUpd, upd)` — every field except `updated_at`. -/
theorem upsertList_strip_idem
    (hUpdNon : ∀ b r, nonUpd (applyU b r) = nonUpd b)
    (hUpdUpd : ∀ b r, upd (applyU b r) = updOf r)
    (hNewKey : ∀ r, rowKey (mkRow r) = recKey r)
    (hNewUpd : ∀ r, upd (mkRow r) = updOf r)
    (hKeyNon : ∀ a b, nonUpd a = nonUpd b → rowKey a = rowKey b)
    (d : List Row) (rs : List Rec) :
    (upsertList rowKey recKey mkRow applyU
        (upsertList rowKey recKey mkRow applyU d rs) rs).map
          (fun x => (nonUpd x, upd x))
      = (upsertList rowKey recKey mkRow applyU d rs).map
          (fun x => (nonUpd x, upd x)) := by
  have hbase : UpsInv rowKey recKey nonUpd upd updOf rs
      (upsertList rowKey recKey mkRow applyU d rs)
      (upsertList rowKey recKey mkRow applyU d rs) := by
    apply UpsInv_base
    intro k r' hl b hb
    rcases upsertList_last_write rowKey recKey mkRow applyU nonUpd upd updOf
      hUpdNon hUpdUpd hNewKey hNewUpd hKeyNon rs d k r' hl with ⟨b', hb', hub⟩
    rw [hb] at hb'
    injection hb' with h2
    rw [h2]
    exact hub
  have hkeys : ∀ r ∈ rs, ∃ b ∈ upsertList rowKey recKey mkRow applyU d rs,
      rowKey b = recKey r := by
    intro r hr
    rcases lastWithKey_self_mem recKey rs r hr with ⟨r'', hl⟩
    rcases upsertList_last_write rowKey recKey mkRow applyU nonUpd upd updOf
      hUpdNon hUpdUpd hNewKey hNewUpd hKeyNon rs d (recKey r) r'' hl with ⟨b, hb, _⟩
    refine ⟨b, List.mem_of_find?_eq_some hb, ?_⟩
    have h2 := List.find?_some hb
    simpa using h2
  exact UpsInv_nil_strip rowKey recKey nonUpd upd updOf _ _
    (UpsInv_run rowKey recKey mkRow applyU nonUpd upd updOf
      hUpdNon hUpdUpd hKeyNon rs _ _ hbase hkeys)

end UpsertGeneric

theorem map_ext_of_map_eq {α β γ : Type} (f : α → β) (g : α → γ)
    (hfg : ∀ a b, f a = f b → g a = g b) :
    ∀ (A B : List α), A.map f = B.map f → A.map g = B.map g := by
  intro A
  induction A with
  | nil =>
    intro B h
    cases B with
    | nil => rfl
    | cons b B => simp at h
  | cons a A ih =>
    intro B h
    cases B with
    | nil => simp at h
    | cons b B =>
      simp only [List.map_cons, List.cons.injEq] at h ⊢
      exact ⟨hfg _ _ h.1, ih B h.2⟩

/-- Production dedup key (`db_utils.py` lines 38-44):
`order_no + model + brand_no + job_type + upload_date`. -/
def prodRowKey (row : ProductionInfoDB) : String × String × String × String × DT :=
  (row.order_no, row.model, row.brand_no, row.job_type, row.upload_date)

/-- The same key read from an incoming record. -/
def prodRecKey (r : ProductionInfo) : String × String × String × String × DT :=
  (r.order_no, r.model, r.brand_no, r.job_type, r.upload_date)

/-- The in-place update on a key match (`db_utils.py` lines 49-53): quantity,
performance factor, and `updated_at := now`. -/
def applyProdUpdate (now : DT) (row : ProductionInfoDB) (r : ProductionInfo) :
    ProductionInfoDB :=
  { row with quantity := r.quantity, performance_factor := r.performance_factor,
             updated_at := now }

/-- The inserted row on no match (`db_utils.py` lines 54-67); `worklog_no` is
not set by the insert and keeps its column default. -/
def newProdRow (r : ProductionInfo) : ProductionInfoDB :=
  { id := none, order_no := r.order_no, model := r.model, brand_no := r.brand_no,
    quantity := r.quantity, job_type := r.job_type,
    performance_factor := r.performance_factor, upload_date := r.upload_date,
    created_at := r.created_at, updated_at := r.updated_at }

/-- `upsert_production_info` (`db_utils.py` lines 17-71): per record, update
the first key match else insert, counting every record; commit at the end. -/
def upsert_production_info (db : List ProductionInfoDB)
    (production_info_list : List ProductionInfo) (now : DT) :
    List ProductionInfoDB × Nat :=
  production_info_list.foldl (fun st prod_info =>
    (upsertOne prodRowKey prodRecKey newProdRow (applyProdUpdate now) st.1 prod_info,
      st.2 + 1)) (db, 0)

/-- Worklog dedup key (`db_utils.py` lines 93-96): `order_no + employee_id`. -/
def wlRowKey (row : EmployeeWorklogDB) : String × String := (row.order_no, row.employee_id)

/-- The same key read from an incoming worklog record. -/
def wlRecKey (w : EmployeeWorklog) : String × String := (w.order_no, w.employee_id)

/-- The in-place update on a key match (`db_utils.py` lines 101-113). -/
def applyWlUpdate (now : DT) (row : EmployeeWorklogDB) (w : EmployeeWorklog) :
    EmployeeWorklogDB :=
  { row with model := w.model, brand_no := w.brand_no,
             employee_name := w.employee_name, job_type := w.job_type,
             quantity := w.quantity, performance_factor := w.performance_factor,
             performance_amount := w.performance_amount, work_date := w.work_date,
             upload_date := w.upload_date, validation_result := w.validation_result,
             updated_at := now }

/-- The inserted row on no match (`db_utils.py` lines 114-132). -/
def newWlRow (w : EmployeeWorklog) : EmployeeWorklogDB :=
  { id := none, order_no := w.order_no, model := w.model, brand_no := w.brand_no,
    employee_id := w.employee_id, employee_name := w.employee_name,
    job_type := w.job_type, quantity := w.quantity,
    performance_factor := w.performance_factor,
    performance_amount := w.performance_amount, work_date := w.work_date,
    upload_date := w.upload_date, validation_result := w.validation_result,
    created_at := w.created_at, updated_at := w.updated_at }

/-- `upsert_employee_worklog` (`db_utils.py` lines 74-136). -/
def upsert_employee_worklog (db : List EmployeeWorklogDB)
    (worklog_list : List EmployeeWorklog) (now : DT) :
    List EmployeeWorklogDB × Nat :=
  worklog_list.foldl (fun st worklog =>
    (upsertOne wlRowKey wlRecKey newWlRow (applyWlUpdate now) st.1 worklog,
      st.2 + 1)) (db, 0)

/-- Everything of a production row except the two updatable columns and
`updated_at`. -/
def prodNonUpd (row : ProductionInfoDB) :
    Option Int × String × String × String × String × String × DT × DT :=
  (row.id, row.order_no, row.model, row.brand_no, row.job_type, row.worklog_no,
    row.upload_date, row.created_at)

/-- The updatable columns of a production row. -/
def prodUpd (row : ProductionInfoDB) : Int × ℚ := (row.quantity, row.performance_factor)

/-- The values an update/insert writes into the updatable columns. -/
def prodUpdOf (r : ProductionInfo) : Int × ℚ := (r.quantity, r.performance_factor)

/-- A production row with `updated_at` blanked, for field-by-field comparison
modulo the refresh timestamp. -/
def prodRowExceptUpdatedAt (row : ProductionInfoDB) : ProductionInfoDB :=
  { row with updated_at := ⟨0, 0, 0⟩ }

/-- Everything of a worklog row except the updatable columns and `updated_at`. -/
def wlNonUpd (row : EmployeeWorklogDB) : Option Int × String × String × DT :=
  (row.id, row.order_no, row.employee_id, row.created_at)

/-- The updatable columns of a worklog row. -/
def wlUpd (row : EmployeeWorklogDB) :
    Option String × Option String × Option String × String × Int × ℚ × ℚ × DT × DT × String :=
  (row.model, row.brand_no, row.employee_name, row.job_type, row.quantity,
    row.performance_factor, row.performance_amount, row.work_date,
    row.upload_date, row.validation_result)

/-- The values a worklog update/insert writes into the updatable columns. -/
def wlUpdOf (w : EmployeeWorklog) :
    Option String × Option String × Option String × String × Int × ℚ × ℚ × DT × DT × String :=
  (w.model, w.brand_no, w.employee_name, w.job_type, w.quantity,
    w.performance_factor, w.performance_amount, w.work_date,
    w.upload_date, w.validation_result)

/-- A worklog row with `updated_at` blanked. -/
def wlRowExceptUpdatedAt (row : EmployeeWorklogDB) : EmployeeWorklogDB :=
  { row with updated_at := ⟨0, 0, 0⟩ }

theorem prodKeyNon (a b : ProductionInfoDB) (h : prodNonUpd a = prodNonUpd b) :
    prodRowKey a = prodRowKey b := by
  cases a; cases b
  simp only [prodNonUpd, Prod.mk.injEq] at h
  simp only [prodRowKey, Prod.mk.injEq]
  simp_all

theorem prodStripOfViews (a b : ProductionInfoDB)
    (h : ((fun x => (prodNonUpd x, prodUpd x)) a) = ((fun x => (prodNonUpd x, prodUpd x)) b)) :
    prodRowExceptUpdatedAt a = prodRowExceptUpdatedAt b := by
  cases a; cases b
  simp only [prodNonUpd, prodUpd, Prod.mk.injEq] at h
  simp only [prodRowExceptUpdatedAt, ProductionInfoDB.mk.injEq]
  simp_all

theorem wlKeyNon (a b : EmployeeWorklogDB) (h : wlNonUpd a = wlNonUpd b) :
    wlRowKey a = wlRowKey b := by
  cases a; cases b
  simp only [wlNonUpd, Prod.mk.injEq] at h
  simp only [wlRowKey, Prod.mk.injEq]
  simp_all

theorem wlStripOfViews (a b : EmployeeWorklogDB)
    (h : ((fun x => (wlNonUpd x, wlUpd x)) a) = ((fun x => (wlNonUpd x, wlUpd x)) b)) :
    wlRowExceptUpdatedAt a = wlRowExceptUpdatedAt b := by
  cases a; cases b
  simp only [wlNonUpd, wlUpd, Prod.mk.injEq] at h
  simp only [wlRowExceptUpdatedAt, EmployeeWorklogDB.mk.injEq]
  simp_all

theorem upsert_production_info_eq (db : List ProductionInfoDB)
    (rs : List ProductionInfo) (now : DT) :
    upsert_production_info db rs now
      = (upsertList prodRowKey prodRecKey newProdRow (applyProdUpdate now) db rs,
          rs.length) := by
  rw [upsert_production_info, upsertLoop_spec, Nat.zero_add]

theorem upsert_employee_worklog_eq (db : List EmployeeWorklogDB)
    (rs : List EmployeeWorklog) (now : DT) :
    upsert_employee_worklog db rs now
      = (upsertList wlRowKey wlRecKey newWlRow (applyWlUpdate now) db rs,
          rs.length) := by
  rw [upsert_employee_worklog, upsertLoop_spec, Nat.zero_add]

/-- Counterexample to C7: with an empty table, upserting one record once
leaves `updated_at` at the record's own timestamp, while upserting the same
list twice refreshes it to the call time — the persisted field values are
not the same, so the upsert is not literally idempotent. -/
theorem C7_counterexample_updated_at_refreshed :
    ((upsert_production_info
          (upsert_production_info [] [sampleProd "P1" "W1" 10] ⟨2025, 2, 1⟩).1
          [sampleProd "P1" "W1" 10] ⟨2025, 2, 1⟩).1.map (fun row => row.updated_at)
        = [⟨2025, 2, 1⟩])
    ∧ ((upsert_production_info [] [sampleProd "P1" "W1" 10] ⟨2025, 2, 1⟩).1.map
          (fun row => row.updated_at) = [dJan])
    ∧ ¬ (⟨2025, 2, 1⟩ : DT) = dJan :=
  ⟨rfl, rfl, by decide⟩

/-- C7 (amended): calling either upsert twice with an identical record list
yields the same persisted row count and the same field values except
`updated_at`, which the second call refreshes to its call time: the second
call matches every record on its dedup key and updates in place instead of
inserting duplicates, and each call returns the count of records processed. -/
theorem C7_amended_upsert_idempotent_except_updated_at
    (dbP : List ProductionInfoDB) (rsP : List ProductionInfo)
    (dbW : List EmployeeWorklogDB) (rsW : List EmployeeWorklog) (now : DT) :
    ((upsert_production_info (upsert_production_info dbP rsP now).1 rsP now).1.map
        prodRowExceptUpdatedAt
      = (upsert_production_info dbP rsP now).1.map prodRowExceptUpdatedAt)
    ∧ (upsert_production_info (upsert_production_info dbP rsP now).1 rsP now).1.length
        = (upsert_production_info dbP rsP now).1.length
    ∧ (upsert_production_info dbP rsP now).2 = rsP.length
    ∧ (upsert_production_info (upsert_production_info dbP rsP now).1 rsP now).2
        = rsP.length
    ∧ ((upsert_employee_worklog (upsert_employee_worklog dbW rsW now).1 rsW now).1.map
        wlRowExceptUpdatedAt
      = (upsert_employee_worklog dbW rsW now).1.map wlRowExceptUpdatedAt)
    ∧ (upsert_employee_worklog (upsert_employee_worklog dbW rsW now).1 rsW now).1.length
        = (upsert_employee_worklog dbW rsW now).1.length
    ∧ (upsert_employee_worklog dbW rsW now).2 = rsW.length
    ∧ (upsert_employee_worklog (upsert_employee_worklog dbW rsW now).1 rsW now).2
        = rsW.length := by
  have hgenP := upsertList_strip_idem prodRowKey prodRecKey newProdRow
    (applyProdUpdate now) prodNonUpd prodUpd prodUpdOf
    (fun b r => rfl) (fun b r => rfl) (fun r => rfl) (fun r => rfl) prodKeyNon dbP rsP
  have hgenW := upsertList_strip_idem wlRowKey wlRecKey newWlRow
    (applyWlUpdate now) wlNonUpd wlUpd wlUpdOf
    (fun b r => rfl) (fun b r => rfl) (fun r => rfl) (fun r => rfl) wlKeyNon dbW rsW
  have hP := map_ext_of_map_eq (fun x => (prodNonUpd x, prodUpd x))
    prodRowExceptUpdatedAt prodStripOfViews _ _ hgenP
  have hW := map_ext_of_map_eq (fun x => (wlNonUpd x, wlUpd x))
    wlRowExceptUpdatedAt wlStripOfViews _ _ hgenW
  simp only [upsert_production_info_eq, upsert_employee_worklog_eq]
  refine ⟨hP, ?_, ?_, ?_, hW, ?_, ?_, ?_⟩
  · simpa using congrArg List.length hP
  · trivial
  · trivial
  · simpa using congrArg List.length hW
  · trivial
  · trivial

/-! ## Reconciliation orchestrator — `src/app/api/validation.py` -/

/-- DB row to pydantic model conversion (`validation.py` lines 228-244). -/
def prodRowToModel (item : ProductionInfoDB) : ProductionInfo :=
  { id := item.id, order_no := item.order_no, model := item.model,
    brand_no := item.brand_no, quantity := item.quantity, job_type := item.job_type,
    worklog_no := item.worklog_no, performance_factor := item.performance_factor,
    upload_date := item.upload_date, created_at := item.created_at,
    updated_at := item.updated_at }

/-- DB row to pydantic model conversion (`validation.py` lines 246-266). -/
def wlRowToModel (item : EmployeeWorklogDB) : EmployeeWorklog :=
  { id := item.id, order_no := item.order_no, model := item.model,
    brand_no := item.brand_no, employee_id := item.employee_id,
    employee_name := item.employee_name, job_type := item.job_type,
    quantity := item.quantity, performance_factor := item.performance_factor,
    performance_amount := item.performance_amount, work_date := item.work_date,
    upload_date := item.upload_date, validation_result := item.validation_result,
    created_at := item.created_at, updated_at := item.updated_at }

/-- The response body built by `validate_data` (`validation.py` lines 70-78,
284-311). -/
structure ValidationResponse where
  total_production_records : Nat
  total_worklog_records : Nat
  exception_count : Nat
  normal_count : Nat
  exceptions : List (String × String × List EmployeeWorklog)
  normal : List (String × List EmployeeWorklog)
deriving Repr

/-- `validate_data` (`validation.py` lines 171-311), over the persisted
state: reject an inverted window, load the rows whose date column falls in
the inclusive window, convert them, reconcile, write every touched worklog
record back through the upsert (skipped when there is none), and build the
response.  The error branch returns before anything is loaded, reconciled or
written back, which the returned-state model makes explicit. -/
def validate_data (start_date end_date : DT) (dbProd : List ProductionInfoDB)
    (dbWork : List EmployeeWorklogDB) (now : DT) :
    Except String (ValidationResponse × List EmployeeWorklogDB) :=
  if DT.lt end_date start_date then Except.error "开始日期不能晚于结束日期"
  else
    let production_info_list := dbProd.filter (fun item =>
      DT.le start_date item.created_at && DT.le item.created_at end_date)
    let employee_worklog_list := dbWork.filter (fun item =>
      DT.le start_date item.work_date && DT.le item.work_date end_date)
    let production_info_models := production_info_list.map prodRowToModel
    let employee_worklog_models := employee_worklog_list.map wlRowToModel
    let res := validate_production_and_worklog production_info_models
      employee_worklog_models
    let all_worklogs := res.1.flatMap (fun e => e.2) ++ res.2.flatMap (fun e => e.2)
    let dbWork' := if all_worklogs.isEmpty then dbWork
      else (upsert_employee_worklog dbWork all_worklogs now).1
    Except.ok
      ({ total_production_records := production_info_models.length,
         total_worklog_records := employee_worklog_models.length,
         exception_count := res.1.length,
         normal_count := res.2.length,
         exceptions := res.1.map (fun e => (e.1.1, e.1.2.value, e.2)),
         normal := res.2 }, dbWork')

/-- C9: a reconciliation run whose window has start after end fails with the
invalid-range error and executes nothing: the call returns the error, never
a response, and the persisted worklog state that only an ok result carries
is never produced — no records are loaded, reconciliation is not invoked,
and no `validation_result` is written back. -/
theorem C9_invalid_range_short_circuits (start_date end_date : DT)
    (dbProd : List ProductionInfoDB) (dbWork : List EmployeeWorklogDB) (now : DT)
    (h : DT.lt end_date start_date = true) :
    validate_data start_date end_date dbProd dbWork now
        = Except.error "开始日期不能晚于结束日期"
    ∧ ∀ resp dbWork', validate_data start_date end_date dbProd dbWork now
        ≠ Except.ok (resp, dbWork') := by
  have h1 : validate_data start_date end_date dbProd dbWork now
      = Except.error "开始日期不能晚于结束日期" := by
    rw [validate_data, if_pos h]
  refine ⟨h1, fun resp dbWork' hc => ?_⟩
  rw [h1] at hc
  cases hc

/-- Witness for C9: February 1st to January 1st is rejected. -/
theorem C9_invalid_range_short_circuits_witness :
    validate_data ⟨2025, 2, 1⟩ ⟨2025, 1, 1⟩ [] [] dJan
      = Except.error "开始日期不能晚于结束日期" :=
  (C9_invalid_range_short_circuits ⟨2025, 2, 1⟩ ⟨2025, 1, 1⟩ [] [] dJan
    (by decide)).1
